import Mathlib

/-!
# Verification of the LaunchConditions task-tree core (launchconditions.py)

Shallow embedding of the core of `launchconditions.py`: the `Task` data
model, the line-oriented parser `parse_tasks_from_file`, the serializer
`save_tasks_to_file`, the propagation engine
(`recalc_status_from_children` / `propagate_up`) and the two mutating UI
actions (`action_toggle_status`, `_add_subtask_worker`).

Python strings are modelled as `List Char` (`Str`); file text is a `Str`
after the text-mode newline decoding already performed by `open(...)`.
-/

namespace LC

/-- Python `str` is modelled as a list of characters. -/
abbrev Str := List Char

/-- ASCII whitespace as recognised by Python's `str.strip()` and the `\s`
character class (Unicode whitespace beyond ASCII is out of scope). -/
def isPySpace (c : Char) : Bool :=
  c = ' ' || c = '\t' || c = '\n' || c = '\r' || c = '\x0b' || c = '\x0c'

/-- Python `s.strip()`: drop whitespace from both ends. -/
def pyStrip (s : Str) : Str :=
  ((s.dropWhile isPySpace).reverse.dropWhile isPySpace).reverse

/-- Python `STATUS_CYCLE = ["OPEN", "IN_PROGRESS", "DONE"]` -/
def STATUS_CYCLE : List Str := ["OPEN".data, "IN_PROGRESS".data, "DONE".data]

/-- Python `STATUS_DEFAULT = "OPEN"` -/
def STATUS_DEFAULT : Str := "OPEN".data

def sOPEN : Str := "OPEN".data

def sIN_PROGRESS : Str := "IN_PROGRESS".data

def sDONE : Str := "DONE".data

/-- The `Task` dataclass. The Python object carries a mutable
`parent` back-reference; in this functional model the tree edges
(`children`) are the sole representation and parent links are implicit
(operations that used `parent` walk an explicit path instead). -/
inductive Task where
  | mk (name : Str) (status : Str) (due : Str) (depth : Nat) (children : List Task)

def Task.name : Task → Str
  | .mk n _ _ _ _ => n

def Task.status : Task → Str
  | .mk _ s _ _ _ => s

def Task.due : Task → Str
  | .mk _ _ u _ _ => u

def Task.depth : Task → Nat
  | .mk _ _ _ d _ => d

def Task.children : Task → List Task
  | .mk _ _ _ _ cs => cs

/-- Python `Task.is_leaf` -/
def Task.is_leaf (t : Task) : Bool := t.children.isEmpty

/-- The status computed by `recalc_status_from_children` from the list of
child statuses (the Python method's three-way classification). -/
def recalcFrom (statuses : List Str) : Str :=
  if statuses.all (· = sDONE) then sDONE
  else if statuses.all (· = sOPEN) then sOPEN
  else sIN_PROGRESS

/-- Python `Task.recalc_status_from_children`: a no-op on leaves, otherwise the
status is replaced by the classification of the children's statuses. -/
def Task.recalc_status_from_children : Task → Task
  | .mk n s u d cs =>
    if cs.isEmpty then .mk n s u d cs
    else .mk n (recalcFrom (cs.map Task.status)) u d cs

mutual
/-- The bottom-up `walk` at the end of `parse_tasks_from_file`: recalc all
children first, then the node itself (when it has children). -/
def walkRecalc : Task → Task
  | .mk n s u d cs => Task.recalc_status_from_children (.mk n s u d (walkRecalcList cs))

def walkRecalcList : List Task → List Task
  | [] => []
  | t :: ts => walkRecalc t :: walkRecalcList ts
end

mutual
/-- Python `flatten_tasks`'s inner `walk`: pre-order traversal of one tree. -/
def flattenTask : Task → List Task
  | .mk n s u d cs => .mk n s u d cs :: flattenTaskList cs

def flattenTaskList : List Task → List Task
  | [] => []
  | t :: ts => flattenTask t ++ flattenTaskList ts
end

/-- Python `flatten_tasks(roots)`: pre-order traversal of the forest. -/
def flatten_tasks (roots : List Task) : List Task := flattenTaskList roots

/-- Splitting the file text into physical lines (`f.readlines()` followed by
`rstrip("\n")` on each line; a trailing newline contributes a final empty
segment, which the parser skips as blank). -/
def splitLines : Str → List Str
  | [] => [[]]
  | c :: rest =>
    if c = '\n' then [] :: splitLines rest
    else
      match splitLines rest with
      | l :: ls => (c :: l) :: ls
      | [] => [[c]]

/-- Python `indent.replace("\t", "    ")`. -/
def expandTabs : Str → Str
  | [] => []
  | c :: rest => (if c = '\t' then [' ', ' ', ' ', ' '] else [c]) ++ expandTabs rest

/-- Split a string at the first occurrence of `sep`: `some (before, after)`,
or `none` when `sep` does not occur. -/
def splitFirst? (sep : Char) : Str → Option (Str × Str)
  | [] => none
  | c :: rest =>
    if c = sep then some ([], rest)
    else (splitFirst? sep rest).map (fun p => (c :: p.1, p.2))

/-- Python `content.split(":", 2)` as used by the parser: `some` of the three
parts when the split yields exactly three parts (at least two `:`), `none`
otherwise (the `len(parts) != 3` case). -/
def split2 (content : Str) : Option (Str × Str × Str) :=
  match splitFirst? ':' content with
  | none => none
  | some (a, rest) =>
    match splitFirst? ':' rest with
    | none => none
    | some (b, c) => some (a, b, c)

/-- The parse errors `parse_tasks_from_file` can raise: the two
`ValueError`s (each carrying the offending raw line) and an uncaught
I/O error from `open` (anything other than `FileNotFoundError`). -/
inductive PError where
  | invalidLine (raw : Str)
  | nestedTooDeeply (raw : Str)
  | ioError
deriving DecidableEq

/-- A stack entry of the parser: a task whose children are still being
collected.  The Python code mutates `Task` objects in place and keeps them
on `stack`; here a frame holds the fields plus the children attached so
far, and is converted to a finished `Task` when it leaves the stack. -/
structure Frame where
  name : Str
  status : Str
  due : Str
  depth : Nat
  kids : List Task

def Frame.toTask (f : Frame) : Task := .mk f.name f.status f.due f.depth f.kids

/-- Pop `n` frames off the stack (head = deepest), attaching each popped
frame's finished task as the last child of the frame below it, or to the
root list when the stack empties. -/
def closeN : Nat → List Frame → List Task → List Frame × List Task
  | 0, stack, roots => (stack, roots)
  | _ + 1, [], roots => ([], roots)
  | n + 1, f :: rest, roots =>
    match rest with
    | [] => closeN n [] (roots ++ [f.toTask])
    | g :: rest' => closeN n (⟨g.name, g.status, g.due, g.depth, g.kids ++ [f.toTask]⟩ :: rest') roots

/-- Shrink the stack to length `target` (the truncation `stack = stack[:depth]`
implicit in replacing positions `≥ depth`). -/
def closeTo (target : Nat) (stack : List Frame) (roots : List Task) :
    List Frame × List Task :=
  closeN (stack.length - target) stack roots

/-- One iteration of the `for line in lines` loop of
`parse_tasks_from_file`.  State is `(tasks, stack)`; the stack is stored
deepest-first.  `line.rstrip("\n")` is the identity here because
`splitLines` segments contain no newline. -/
def parseStep (acc : List Task × List Frame) (line : Str) :
    Except PError (List Task × List Frame) :=
  let raw := line
  let stripped := pyStrip raw
  if stripped = [] then .ok acc
  else if stripped.head? = some '#' then .ok acc
  else
    let indent := raw.takeWhile isPySpace
    let content := raw.dropWhile isPySpace
    let depth := (expandTabs indent).length / 4
    match split2 content with
    | none => .error (.invalidLine raw)
    | some (n, s, u) =>
      let name := pyStrip n
      let status := if pyStrip s = [] then STATUS_DEFAULT else pyStrip s
      let due := pyStrip u
      let (roots, stack) := acc
      if depth = 0 then
        let (_, roots') := closeTo 0 stack roots
        .ok (roots', [⟨name, status, due, depth, []⟩])
      else if stack.length < depth then
        .error (.nestedTooDeeply raw)
      else
        let (stack', roots') := closeTo depth stack roots
        .ok (roots', ⟨name, status, due, depth, []⟩ :: stack')

/-- Python `parse_tasks_from_file` applied to the decoded file text: the line
loop, then the bottom-up status walk over the finished roots. -/
def parseTasks (lines : List Str) : Except PError (List Task) := do
  let (roots, stack) ← lines.foldlM parseStep ([], [])
  let (_, roots') := closeTo 0 stack roots
  pure (walkRecalcList roots')

/-- The outcome of `open(path, "r")`: file present with given decoded
text, absent (`FileNotFoundError`), or present but unreadable (an
`OSError` such as `PermissionError` that is *not* `FileNotFoundError`). -/
inductive FileInput where
  | content (text : Str)
  | absent
  | unreadable

/-- Python `parse_tasks_from_file(path)`: only `FileNotFoundError` is caught
(yielding the empty forest); any other `OSError` from `open` propagates. -/
def parse_tasks_from_file : FileInput → Except PError (List Task)
  | .content text => parseTasks (splitLines text)
  | .absent => .ok []
  | .unreadable => .error .ioError

/-- The line emitted by `save_tasks_to_file` for one task:
`" " * 4 * t.depth` then `f"{t.name}:{t.status}:{t.due}"`. -/
def taskLine (t : Task) : Str :=
  List.replicate (4 * t.depth) ' ' ++ t.name ++ ':' :: t.status ++ ':' :: t.due

/-- Python `"\n".join(lines)`. -/
def joinNL : List Str → Str
  | [] => []
  | [l] => l
  | l :: l2 :: ls => l ++ '\n' :: joinNL (l2 :: ls)

/-- The full text written by `save_tasks_to_file`:
`"\n".join(lines) + "\n"` over the pre-order flattening. -/
def save_tasks_to_string (roots : List Task) : Str :=
  joinNL ((flatten_tasks roots).map taskLine) ++ ['\n']

/-- Python `STATUS_CYCLE.index(status)` with the `except ValueError: idx = 0`
fallback: index of the first occurrence, if any. -/
def indexIn (s : Str) : List Str → Option Nat
  | [] => none
  | x :: xs => if x = s then some 0 else (indexIn s xs).map (· + 1)

/-- The new status computed by `action_toggle_status` for a leaf:
`STATUS_CYCLE[(idx + 1) % len(STATUS_CYCLE)]` where `idx` is the status's
index in the cycle, or `0` when the lookup raises `ValueError`. -/
def cycleStatus (s : Str) : Str :=
  let idx := (indexIn s STATUS_CYCLE).getD 0
  STATUS_CYCLE.getD ((idx + 1) % STATUS_CYCLE.length) []

def Task.withStatus : Task → Str → Task
  | .mk n _ u d cs, s => .mk n s u d cs

def Task.withChildren : Task → List Task → Task
  | .mk n s u d _, cs => .mk n s u d cs

/-- The task a path of child indices leads to inside one tree. -/
def taskAtPath : Task → List Nat → Option Task
  | t, [] => some t
  | t, i :: p => (t.children[i]?).bind fun c => taskAtPath c p

/-- The task a selection `(root index, child path)` leads to in a forest.
Selections replace the Python `parent` back-references: `propagate_up`
walks this path from the mutated node back to its root. -/
def taskAtForest (roots : List Task) (sel : Nat × List Nat) : Option Task :=
  (roots[sel.1]?).bind fun t => taskAtPath t sel.2

/-- Python `action_toggle_status` below the selected root: cycle the leaf at the
end of the path, then `propagate_up` — every ancestor on the path (all of
which have children) reruns `recalc_status_from_children` bottom-up.
`none` when the path is invalid or the selected task is not a leaf (the
early `return`). -/
def togglePath : Task → List Nat → Option Task
  | t, [] => if t.is_leaf then some (t.withStatus (cycleStatus t.status)) else none
  | t, i :: p =>
    (t.children[i]?).bind fun c =>
      (togglePath c p).map fun c' =>
        Task.recalc_status_from_children (t.withChildren (t.children.set i c'))

/-- Python `LaunchConditionsApp.action_toggle_status`: with no selection, or a
selection that is not a leaf, the forest is unchanged; otherwise the leaf's
status is cycled and the change propagated to its ancestors. -/
def action_toggle_status (roots : List Task) : Option (Nat × List Nat) → List Task
  | none => roots
  | some (i, p) =>
    match (roots[i]?).bind fun t => togglePath t p with
    | none => roots
    | some t' => roots.set i t'

/-- Python `_add_subtask_worker` below the selected root: append a fresh OPEN
leaf with `depth = parent.depth + 1` to the parent at the end of the path,
then `propagate_up` from the new node (recalculating the parent and every
further ancestor). -/
def addChildPath : Task → List Nat → Str → Str → Option Task
  | t, [], nm, du =>
    some (Task.recalc_status_from_children
      (t.withChildren (t.children ++ [Task.mk nm "OPEN".data du (t.depth + 1) []])))
  | t, i :: p, nm, du =>
    (t.children[i]?).bind fun c =>
      (addChildPath c p nm du).map fun c' =>
        Task.recalc_status_from_children (t.withChildren (t.children.set i c'))

/-- Python `LaunchConditionsApp._add_subtask_worker` after the dialog returns
`(name, due)`: with no selected parent a new root
`Task(name, "OPEN", due, depth=0)` is appended (its `propagate_up` is a
no-op); otherwise the new leaf is appended under the selected parent. -/
def add_subtask (roots : List Task) (sel : Option (Nat × List Nat)) (nm du : Str) :
    List Task :=
  match sel with
  | none => roots ++ [Task.mk nm "OPEN".data du 0 []]
  | some (i, p) =>
    match (roots[i]?).bind fun t => addChildPath t p nm du with
    | none => roots
    | some t' => roots.set i t'

/-- How far the `open(path, "w")` / `f.write(text)` pair in
`save_tasks_to_file` proceeds before raising `OSError`, if at all.
Opening with mode `"w"` truncates the file the moment it succeeds, so a
write that fails afterwards leaves some prefix of the new text on disk. -/
inductive WriteOutcome where
  | ok
  | openFails
  | writeFails (written : Nat)
deriving DecidableEq

/-- On-disk content after `save_tasks_to_file(path, roots)` runs against a
file currently holding `prior`, paired with whether the call raised
`OSError`. -/
def save_tasks_to_file (prior : Str) (roots : List Task) :
    WriteOutcome → Str × Bool
  | .ok => (save_tasks_to_string roots, false)
  | .openFails => (prior, true)
  | .writeFails k => ((save_tasks_to_string roots).take k, true)

/-- Python `LaunchConditionsApp.save_with_handling`: catches the `OSError`,
reports it, and returns `False`; returns `True` on success.  Result is
`(new on-disk content, returned bool)`. -/
def save_with_handling (prior : Str) (roots : List Task) (w : WriteOutcome) :
    Str × Bool :=
  let r := save_tasks_to_file prior roots w
  (r.1, !r.2)

/-- Field/depth well-formedness of one parsed task at nesting level `d`:
fields carry no newline and are strip-invariant, `name` and `status`
contain no `:`, `status` is nonempty, `name` cannot be mistaken for a
comment, the stored depth is `d`, and children are well-formed at `d+1`.
Every forest `parse_tasks_from_file` returns satisfies this. -/
def fieldOk (s : Str) : Bool := pyStrip s = s && !decide ('\n' ∈ s)

def nameOk (n : Str) : Bool := fieldOk n && !decide (':' ∈ n) && n.head? ≠ some '#'

def statusOk (s : Str) : Bool := fieldOk s && !decide (':' ∈ s) && s ≠ []

mutual
def wfT (d : Nat) : Task → Bool
  | .mk n s u dep cs =>
    nameOk n && statusOk s && fieldOk u && dep = d && wfL (d + 1) cs

def wfL (d : Nat) : List Task → Bool
  | [] => true
  | t :: ts => wfT d t && wfL d ts
end

mutual
/-- The status roll-up invariant: every task with children stores exactly
the status `recalc_status_from_children` would derive from them. -/
def rollUpT : Task → Bool
  | .mk _ s _ _ cs =>
    (cs.isEmpty || decide (s = recalcFrom (cs.map Task.status))) && rollUpL cs

def rollUpL : List Task → Bool
  | [] => true
  | t :: ts => rollUpT t && rollUpL ts
end

mutual
/-- Depth consistency alone: each node's stored depth is its level, i.e.
`parent.depth + 1` under a parent and `0` at a root. -/
def depthOkT (d : Nat) : Task → Bool
  | .mk _ _ _ dep cs => dep = d && depthOkL (d + 1) cs

def depthOkL (d : Nat) : List Task → Bool
  | [] => true
  | t :: ts => depthOkT d t && depthOkL d ts
end

/-- The depth `parse_tasks_from_file` computes for a raw line:
tab-expanded leading whitespace, integer-divided by 4. -/
def lineDepth (raw : Str) : Nat := (expandTabs (raw.takeWhile isPySpace)).length / 4

/-! ## Parser state invariant -/
def frameFieldsOk (f : Frame) : Bool :=
  nameOk f.name && statusOk f.status && fieldOk f.due

/-- Invariant of the parser stack (head = deepest frame): each frame's
fields are well-formed, its depth equals its position from the bottom,
and its already-attached children are well-formed one level deeper. -/
def stackOk : List Frame → Bool
  | [] => true
  | f :: rest =>
    frameFieldsOk f && decide (f.depth = rest.length) &&
      wfL (f.depth + 1) f.kids && stackOk rest

/-! ## Round trip: closing an open spine reassembles its task -/
/-- Attach a finished task below the top of the stack (as the last child
of the frame below, or as a new root when the stack is empty). -/
def attachTask (t : Task) : List Frame → List Task → List Frame × List Task
  | [], roots => ([], roots ++ [t])
  | g :: rest, roots => (⟨g.name, g.status, g.due, g.depth, g.kids ++ [t]⟩ :: rest, roots)

/-- The parser stack fragment left open after reading all lines of a
subtree: the frames of the rightmost path, deepest first, each holding
the children serialized before its still-open last child. -/
def openSpine : Task → List Frame
  | .mk n s u d cs =>
    match h : cs.getLast? with
    | none => [⟨n, s, u, d, []⟩]
    | some c => openSpine c ++ [⟨n, s, u, d, cs.dropLast⟩]
termination_by t => sizeOf t
decreasing_by
  have h1 := List.sizeOf_lt_of_mem (List.mem_of_mem_getLast? h)
  simp only [Task.mk.sizeOf_spec]
  omega

/-- The content part of a serialized line. -/
def contentOf (n s u : Str) : Str := n ++ ':' :: (s ++ ':' :: u)

/-! ## The reparse machine lemma -/
def linesOfTask (t : Task) : List Str := (flattenTask t).map taskLine

def linesOfList (ts : List Task) : List Str := (flattenTaskList ts).map taskLine

/-- The stack after serially reparsing the subtrees `cs'` (children of a
frame at depth `d` that already holds `done`): unchanged when `cs'` is
empty, otherwise the open spine of the last subtree over the parent frame
now holding everything but that last subtree. -/
def endSt (n s u : Str) (d : Nat) (stack₀ : List Frame) (done cs' : List Task)
    (st : List Frame) : List Frame :=
  match cs'.getLast? with
  | none => st
  | some c => openSpine c ++ ⟨n, s, u, d, done ++ cs'.dropLast⟩ :: stack₀

/-- Forests the application can hold in `self.roots`: loaded from a task
file by `parse_tasks_from_file`, or obtained from such a forest by any
sequence of toggle-status and add-subtask actions. -/
inductive Reachable : List Task → Prop
  | loaded (text : Str) (F : List Task)
      (h : parse_tasks_from_file (.content text) = .ok F) : Reachable F
  | toggled (roots : List Task) (sel : Option (Nat × List Nat))
      (h : Reachable roots) : Reachable (action_toggle_status roots sel)
  | added (roots : List Task) (sel : Option (Nat × List Nat)) (nm du : Str)
      (h : Reachable roots) : Reachable (add_subtask roots sel nm du)

/-! ## Theorems -/

example : walkRecalcList [Task.mk "a".data sOPEN [] 0 []] =
    [Task.mk "a".data sOPEN [] 0 []] := rfl

example :
    walkRecalc (Task.mk "a".data sOPEN [] 0
      [Task.mk "b".data sDONE [] 1 [], Task.mk "c".data sOPEN [] 1 []]) =
    Task.mk "a".data sIN_PROGRESS [] 0
      [Task.mk "b".data sDONE [] 1 [], Task.mk "c".data sOPEN [] 1 []] := rfl

/-! ## Basic infrastructure -/
theorem Task.inductionOn {P : Task → Prop}
    (h : ∀ n s u d cs, (∀ c ∈ cs, P c) → P (.mk n s u d cs)) : ∀ t, P t
  | .mk n s u d cs => h n s u d cs (fun c hc => Task.inductionOn h c)
termination_by t => sizeOf t
decreasing_by
  have h1 := List.sizeOf_lt_of_mem hc
  simp only [Task.mk.sizeOf_spec]
  omega

theorem name_mk (n s u : Str) (d : Nat) (cs : List Task) :
    (Task.mk n s u d cs).name = n := rfl

theorem status_mk (n s u : Str) (d : Nat) (cs : List Task) :
    (Task.mk n s u d cs).status = s := rfl

theorem due_mk (n s u : Str) (d : Nat) (cs : List Task) :
    (Task.mk n s u d cs).due = u := rfl

theorem depth_mk (n s u : Str) (d : Nat) (cs : List Task) :
    (Task.mk n s u d cs).depth = d := rfl

theorem children_mk (n s u : Str) (d : Nat) (cs : List Task) :
    (Task.mk n s u d cs).children = cs := rfl

theorem task_eta (t : Task) : Task.mk t.name t.status t.due t.depth t.children = t := by
  cases t; rfl

theorem wfL_iff (d : Nat) (ts : List Task) :
    wfL d ts = true ↔ ∀ t ∈ ts, wfT d t = true := by
  induction ts with
  | nil => simp [wfL]
  | cons t ts ih => simp [wfL, ih]

theorem rollUpL_iff (ts : List Task) :
    rollUpL ts = true ↔ ∀ t ∈ ts, rollUpT t = true := by
  induction ts with
  | nil => simp [rollUpL]
  | cons t ts ih => simp [rollUpL, ih]

theorem depthOkL_iff (d : Nat) (ts : List Task) :
    depthOkL d ts = true ↔ ∀ t ∈ ts, depthOkT d t = true := by
  induction ts with
  | nil => simp [depthOkL]
  | cons t ts ih => simp [depthOkL, ih]

theorem walkRecalcList_eq (ts : List Task) :
    walkRecalcList ts = ts.map walkRecalc := by
  induction ts with
  | nil => rfl
  | cons t ts ih => simp [walkRecalcList, ih]

theorem flattenTaskList_eq (ts : List Task) :
    flattenTaskList ts = ts.flatMap flattenTask := by
  induction ts with
  | nil => rfl
  | cons t ts ih => simp [flattenTaskList, ih]

theorem recalcFrom_mem (ss : List Str) :
    recalcFrom ss = sDONE ∨ recalcFrom ss = sOPEN ∨ recalcFrom ss = sIN_PROGRESS := by
  unfold recalcFrom
  split
  · exact Or.inl rfl
  · split
    · exact Or.inr (Or.inl rfl)
    · exact Or.inr (Or.inr rfl)

theorem recalc_children (t : Task) :
    (Task.recalc_status_from_children t).children = t.children := by
  cases t with
  | mk n s u d cs =>
    simp only [Task.recalc_status_from_children]
    split <;> rfl

theorem recalc_name (t : Task) :
    (Task.recalc_status_from_children t).name = t.name := by
  cases t with
  | mk n s u d cs =>
    simp only [Task.recalc_status_from_children]
    split <;> rfl

theorem recalc_due (t : Task) :
    (Task.recalc_status_from_children t).due = t.due := by
  cases t with
  | mk n s u d cs =>
    simp only [Task.recalc_status_from_children]
    split <;> rfl

theorem recalc_depth (t : Task) :
    (Task.recalc_status_from_children t).depth = t.depth := by
  cases t with
  | mk n s u d cs =>
    simp only [Task.recalc_status_from_children]
    split <;> rfl

theorem recalc_status_of_ne (n s u : Str) (d : Nat) (cs : List Task) (h : cs ≠ []) :
    (Task.recalc_status_from_children (.mk n s u d cs)).status
      = recalcFrom (cs.map Task.status) := by
  simp only [Task.recalc_status_from_children]
  rw [if_neg (by simpa [List.isEmpty_iff] using h)]
  rfl

theorem recalc_of_derived (t : Task)
    (h : t.children ≠ [] → t.status = recalcFrom (t.children.map Task.status)) :
    Task.recalc_status_from_children t = t := by
  cases t with
  | mk n s u d cs =>
    simp only [Task.recalc_status_from_children]
    split
    · rfl
    · rename_i hne
      rw [List.isEmpty_iff] at hne
      simp only [children_mk, status_mk] at h
      rw [h hne]

/-! ## The toggle cycle (`STATUS_CYCLE` stepping) -/
theorem cycleStatus_sOPEN : cycleStatus sOPEN = sIN_PROGRESS := by decide

theorem cycleStatus_sIN_PROGRESS : cycleStatus sIN_PROGRESS = sDONE := by decide

theorem cycleStatus_sDONE : cycleStatus sDONE = sOPEN := by decide

theorem indexIn_none (s : Str) (h1 : s ≠ sOPEN) (h2 : s ≠ sIN_PROGRESS) (h3 : s ≠ sDONE) :
    indexIn s STATUS_CYCLE = none := by
  have e : STATUS_CYCLE = [sOPEN, sIN_PROGRESS, sDONE] := rfl
  rw [e]
  simp [indexIn, Ne.symm h1, Ne.symm h2, Ne.symm h3]

theorem cycleStatus_unknown (s : Str) (h1 : s ≠ sOPEN) (h2 : s ≠ sIN_PROGRESS)
    (h3 : s ≠ sDONE) : cycleStatus s = sIN_PROGRESS := by
  unfold cycleStatus
  rw [indexIn_none s h1 h2 h3]
  rfl

/-! ## Toggle: path lemmas -/
theorem withStatus_children (t : Task) (st : Str) : (t.withStatus st).children = t.children := by
  cases t; rfl

theorem withStatus_status (t : Task) (st : Str) : (t.withStatus st).status = st := by
  cases t; rfl

theorem withChildren_children (t : Task) (cs : List Task) :
    (t.withChildren cs).children = cs := by
  cases t; rfl

theorem togglePath_of_leaf (p : List Nat) : ∀ (t tt : Task),
    taskAtPath t p = some tt → tt.is_leaf = true →
    ∃ t', togglePath t p = some t' ∧
      taskAtPath t' p = some (tt.withStatus (cycleStatus tt.status)) := by
  induction p with
  | nil =>
    intro t tt h hl
    simp only [taskAtPath, Option.some.injEq] at h
    subst h
    refine ⟨t.withStatus (cycleStatus t.status), ?_, ?_⟩
    · simp [togglePath, hl]
    · simp [taskAtPath]
  | cons i p ih =>
    intro t tt h hl
    simp only [taskAtPath, Option.bind_eq_some] at h
    obtain ⟨c, hc, h⟩ := h
    obtain ⟨c', hc', hcp⟩ := ih c tt h hl
    have hlt : i < t.children.length := by
      by_contra hge
      rw [List.getElem?_eq_none (by omega)] at hc
      exact absurd hc (by simp)
    refine ⟨Task.recalc_status_from_children (t.withChildren (t.children.set i c')), ?_, ?_⟩
    · simp only [togglePath, hc, Option.some_bind, hc', Option.map_some']
    · simp only [taskAtPath, recalc_children, withChildren_children]
      rw [List.getElem?_set_eq_of_lt _ (by simpa using hlt), Option.some_bind]
      exact hcp

theorem togglePath_of_interior (p : List Nat) : ∀ (t tt : Task),
    taskAtPath t p = some tt → tt.is_leaf = false → togglePath t p = none := by
  induction p with
  | nil =>
    intro t tt h hl
    simp only [taskAtPath, Option.some.injEq] at h
    subst h
    simp [togglePath, hl]
  | cons i p ih =>
    intro t tt h hl
    simp only [taskAtPath, Option.bind_eq_some] at h
    obtain ⟨c, hc, h⟩ := h
    simp only [togglePath, hc, Option.some_bind, ih c tt h hl, Option.map_none']

theorem toggle_forest_of_leaf (roots : List Task) (i : Nat) (p : List Nat) (t : Task)
    (h : taskAtForest roots (i, p) = some t) (hl : t.is_leaf = true) :
    taskAtForest (action_toggle_status roots (some (i, p))) (i, p)
      = some (t.withStatus (cycleStatus t.status)) := by
  simp only [taskAtForest, Option.bind_eq_some] at h
  obtain ⟨r, hr, h⟩ := h
  obtain ⟨r', hr', hrp⟩ := togglePath_of_leaf p r t h hl
  have hlt : i < roots.length := by
    by_contra hge
    rw [List.getElem?_eq_none (by omega)] at hr
    exact absurd hr (by simp)
  simp only [action_toggle_status, hr, Option.some_bind, hr']
  simp only [taskAtForest]
  rw [List.getElem?_set_eq_of_lt _ (by simpa using hlt), Option.some_bind]
  exact hrp

theorem toggle_forest_of_interior (roots : List Task) (i : Nat) (p : List Nat) (t : Task)
    (h : taskAtForest roots (i, p) = some t) (hl : t.is_leaf = false) :
    action_toggle_status roots (some (i, p)) = roots := by
  simp only [taskAtForest, Option.bind_eq_some] at h
  obtain ⟨r, hr, h⟩ := h
  simp only [action_toggle_status, hr, Option.some_bind,
    togglePath_of_interior p r t h hl]

/-! ## Claim C3 -/
/-- C3. `action_toggle_status` on a leaf advances its status exactly one
step along the cycle OPEN → IN_PROGRESS → DONE → OPEN; applied to a task
that has children it is a no-op, returning the forest unchanged (so every
task's status is untouched). -/
theorem C3_toggle_cycles_leaves_noop_interior :
    (cycleStatus sOPEN = sIN_PROGRESS ∧ cycleStatus sIN_PROGRESS = sDONE ∧
      cycleStatus sDONE = sOPEN) ∧
    ∀ (roots : List Task) (i : Nat) (p : List Nat) (t : Task),
      taskAtForest roots (i, p) = some t →
      (t.is_leaf = true →
        taskAtForest (action_toggle_status roots (some (i, p))) (i, p)
          = some (t.withStatus (cycleStatus t.status))) ∧
      (t.is_leaf = false → action_toggle_status roots (some (i, p)) = roots) :=
  ⟨⟨cycleStatus_sOPEN, cycleStatus_sIN_PROGRESS, cycleStatus_sDONE⟩,
   fun roots i p t h =>
     ⟨fun hl => toggle_forest_of_leaf roots i p t h hl,
      fun hl => toggle_forest_of_interior roots i p t h hl⟩⟩

/-- Witness for C3: a concrete OPEN leaf toggles to IN_PROGRESS. -/
theorem C3_toggle_cycles_leaves_noop_interior_witness :
    taskAtForest (action_toggle_status
        [Task.mk "A".data sOPEN [] 0 []] (some (0, []))) (0, [])
      = some (Task.mk "A".data sIN_PROGRESS [] 0 []) := by
  have h := (C3_toggle_cycles_leaves_noop_interior.2
      [Task.mk "A".data sOPEN [] 0 []] 0 [] (Task.mk "A".data sOPEN [] 0 [])
      rfl).1 rfl
  exact h

/-! ## Claim C10 -/
/-- C10. Toggling a leaf whose status string is none of OPEN,
IN_PROGRESS, DONE sets it to IN_PROGRESS: the failed `STATUS_CYCLE.index`
lookup falls back to `idx = 0`, so the unknown status is treated as OPEN
and advanced one step. -/
theorem C10_toggle_unknown_status (roots : List Task) (i : Nat) (p : List Nat) (t : Task)
    (h : taskAtForest roots (i, p) = some t) (hl : t.is_leaf = true)
    (h1 : t.status ≠ sOPEN) (h2 : t.status ≠ sIN_PROGRESS) (h3 : t.status ≠ sDONE) :
    taskAtForest (action_toggle_status roots (some (i, p))) (i, p)
      = some (t.withStatus sIN_PROGRESS) := by
  rw [toggle_forest_of_leaf roots i p t h hl, cycleStatus_unknown t.status h1 h2 h3]

/-- Witness for C10: a leaf with stored status `WEIRD` toggles to
IN_PROGRESS. -/
theorem C10_toggle_unknown_status_witness :
    taskAtForest (action_toggle_status
        [Task.mk "x".data "WEIRD".data [] 0 []] (some (0, []))) (0, [])
      = some (Task.mk "x".data sIN_PROGRESS [] 0 []) := by
  have h := C10_toggle_unknown_status [Task.mk "x".data "WEIRD".data [] 0 []] 0 []
      (Task.mk "x".data "WEIRD".data [] 0 []) rfl rfl (by decide) (by decide) (by decide)
  exact h

/-! ## Claim C5 -/
/-- C5 counterexample. The claim "absent, or present but unreadable,
returns an empty forest and raises no error" fails for an unreadable file:
only `FileNotFoundError` is caught by `parse_tasks_from_file`, so the
`OSError` of a present-but-unreadable file propagates. -/
theorem C5_counterexample :
    parse_tasks_from_file FileInput.unreadable ≠ Except.ok ([] : List Task) ∧
    parse_tasks_from_file FileInput.unreadable = Except.error PError.ioError :=
  ⟨fun h => Except.noConfusion h, rfl⟩

/-- C5 amended. An absent file parses to the empty forest with no
error; a present-but-unreadable file raises the underlying `OSError`
uncaught. -/
theorem C5_amended :
    parse_tasks_from_file FileInput.absent = Except.ok ([] : List Task) ∧
    parse_tasks_from_file FileInput.unreadable = Except.error PError.ioError :=
  ⟨rfl, rfl⟩

/-! ## Claim C4 -/
/-- C4 counterexample. `save_tasks_to_file` opens with mode `"w"`,
which truncates at once: a write failing immediately afterwards leaves an
empty file, not the prior content, refuting "a failed write leaves the
previously persisted content unchanged". -/
theorem C4_counterexample :
    (save_with_handling "A:OPEN:\n".data [] (.writeFails 0)).2 = false ∧
    (save_with_handling "A:OPEN:\n".data [] (.writeFails 0)).1 ≠ "A:OPEN:\n".data :=
  ⟨rfl, by decide⟩

/-- C4 amended. A failed save is always reported
(`save_with_handling` returns `False`); a failure at `open` leaves the
prior on-disk content intact, but a failure during `write` leaves the
file holding a prefix of the new serialization, losing the prior
content. -/
theorem C4_amended (prior : Str) (roots : List Task) (w : WriteOutcome)
    (h : w ≠ WriteOutcome.ok) :
    (save_with_handling prior roots w).2 = false ∧
    (w = WriteOutcome.openFails → (save_with_handling prior roots w).1 = prior) ∧
    (∀ k, w = WriteOutcome.writeFails k →
      (save_with_handling prior roots w).1 = (save_tasks_to_string roots).take k) := by
  cases w with
  | ok => exact absurd rfl h
  | openFails => exact ⟨rfl, fun _ => rfl, fun k hk => by cases hk⟩
  | writeFails k =>
    refine ⟨rfl, ?_, ?_⟩
    · intro hk
      cases hk
    · intro k' hk
      cases hk
      rfl

/-- Witness for C4 (amended): a failure at `open` against a concrete prior
content is reported and leaves that content in place. -/
theorem C4_amended_witness :
    (save_with_handling "A:OPEN:\n".data [] WriteOutcome.openFails).2 = false ∧
    (save_with_handling "A:OPEN:\n".data [] WriteOutcome.openFails).1 = "A:OPEN:\n".data :=
  ⟨(C4_amended "A:OPEN:\n".data [] WriteOutcome.openFails (by decide)).1,
   (C4_amended "A:OPEN:\n".data [] WriteOutcome.openFails (by decide)).2.1 rfl⟩

/-- C8 counterexample. A leaf's stored status survives parsing
verbatim: `x:WEIRD:` parses to a forest whose only task has status
`WEIRD`, which is none of OPEN, IN_PROGRESS, DONE — refuting "every task
… has status equal to one of OPEN, IN_PROGRESS, or DONE". -/
theorem C8_counterexample :
    parse_tasks_from_file (.content "x:WEIRD:".data)
      = Except.ok [Task.mk "x".data "WEIRD".data [] 0 []] ∧
    ("WEIRD".data ≠ sOPEN ∧ "WEIRD".data ≠ sIN_PROGRESS ∧ "WEIRD".data ≠ sDONE) :=
  ⟨rfl, by decide, by decide, by decide⟩

/-! ## Line splitting: `split2` and colon counting -/
theorem splitFirst?_eq_none_iff (c : Char) (l : Str) :
    splitFirst? c l = none ↔ c ∉ l := by
  induction l with
  | nil => simp [splitFirst?]
  | cons x xs ih =>
    by_cases hx : x = c
    · subst hx
      simp [splitFirst?]
    · simp only [splitFirst?, if_neg hx, Option.map_eq_none', ih, List.mem_cons, not_or]
      constructor
      · intro h
        exact ⟨fun e => hx e.symm, h⟩
      · intro h
        exact h.2

theorem splitFirst?_eq_some (c : Char) : ∀ (l a b : Str),
    splitFirst? c l = some (a, b) → l = a ++ c :: b ∧ c ∉ a := by
  intro l
  induction l with
  | nil => intro a b h; cases h
  | cons x xs ih =>
    intro a b h
    by_cases hx : x = c
    · subst hx
      simp only [splitFirst?, if_pos rfl, Option.some.injEq, Prod.mk.injEq] at h
      obtain ⟨rfl, rfl⟩ := h
      simp
    · simp only [splitFirst?, if_neg hx, Option.map_eq_some'] at h
      obtain ⟨⟨a', b'⟩, hab, heq⟩ := h
      obtain ⟨rfl, h2⟩ := ih a' b' hab
      obtain ⟨rfl, rfl⟩ := Prod.mk.injEq .. |>.mp heq
      refine ⟨rfl, ?_⟩
      simp only [List.mem_cons, not_or]
      exact ⟨fun e => hx e.symm, h2⟩

theorem splitFirst?_append (c : Char) : ∀ (a b : Str), c ∉ a →
    splitFirst? c (a ++ c :: b) = some (a, b) := by
  intro a
  induction a with
  | nil =>
    intro b _
    simp [splitFirst?]
  | cons x xs ih =>
    intro b h
    have hx : ¬x = c := fun e => h (by simp [e])
    simp [splitFirst?, hx, ih b (fun hc => h (by simp [hc]))]

theorem split2_eq_none_iff (l : Str) : split2 l = none ↔ l.count ':' < 2 := by
  unfold split2
  cases h1 : splitFirst? ':' l with
  | none =>
    have h : (':' : Char) ∉ l := (splitFirst?_eq_none_iff ':' l).1 h1
    simp [List.count_eq_zero.2 h]
  | some p =>
    obtain ⟨a, rest⟩ := p
    obtain ⟨rfl, ha⟩ := splitFirst?_eq_some ':' l a rest h1
    simp only
    cases h2 : splitFirst? ':' rest with
    | none =>
      have h : (':' : Char) ∉ rest := (splitFirst?_eq_none_iff ':' rest).1 h2
      simp [List.count_append, List.count_cons, List.count_eq_zero.2 ha,
        List.count_eq_zero.2 h]
    | some q =>
      obtain ⟨b, d⟩ := q
      obtain ⟨rfl, hb⟩ := splitFirst?_eq_some ':' rest b d h2
      have hcount : 2 ≤ (a ++ ':' :: (b ++ ':' :: d)).count ':' := by
        simp [List.count_append, List.count_cons]
        omega
      simp only
      constructor
      · intro h
        exact Option.noConfusion h
      · intro h
        omega

theorem split2_append (n s d : Str) (hn : ':' ∉ n) (hs : ':' ∉ s) :
    split2 (n ++ ':' :: (s ++ ':' :: d)) = some (n, s, d) := by
  unfold split2
  rw [splitFirst?_append ':' n (s ++ ':' :: d) hn]
  simp only
  rw [splitFirst?_append ':' s d hs]

/-! ## Claim C6 -/
/-- C6. For a non-blank, non-comment line, the parser raises the
`Invalid line` error carrying the raw line exactly when the content after
the indent has fewer than two `:`; with two or more `:` the content is
split at the first two occurrences only, so any later `:` stays inside
the (pre-trim) due field. -/
theorem C6_invalid_line_iff_fewer_than_two_colons :
    (∀ (acc : List Task × List Frame) (raw : Str),
      pyStrip raw ≠ [] → (pyStrip raw).head? ≠ some '#' →
      (parseStep acc raw = .error (.invalidLine raw)
        ↔ (raw.dropWhile isPySpace).count ':' < 2)) ∧
    (∀ n s d : Str, ':' ∉ n → ':' ∉ s →
      split2 (n ++ ':' :: (s ++ ':' :: d)) = some (n, s, d)) := by
  constructor
  · intro acc raw h1 h2
    rw [← split2_eq_none_iff]
    unfold parseStep
    simp only [h1, h2, if_neg, ite_false]
    cases hs : split2 (raw.dropWhile isPySpace) with
    | none => simp
    | some x =>
      obtain ⟨n, s, u⟩ := x
      obtain ⟨roots, stack⟩ := acc
      simp only
      constructor
      · intro h
        split_ifs at h <;> simp_all
      · intro h
        cases h
  · exact split2_append

/-- Witness for C6: the line `a:b:c:d` has three `:`; it parses (no
`Invalid line` error) and the extra `:` stays in the due field. -/
theorem C6_invalid_line_iff_fewer_than_two_colons_witness :
    (parseStep ([], []) "a:b:c:d".data = .error (.invalidLine "a:b:c:d".data)
      ↔ ("a:b:c:d".data.dropWhile isPySpace).count ':' < 2) ∧
    split2 "a:b:c:d".data = some ("a".data, "b".data, "c:d".data) := by
  constructor
  · exact C6_invalid_line_iff_fewer_than_two_colons.1 ([], []) "a:b:c:d".data
      (by decide) (by decide)
  · exact C6_invalid_line_iff_fewer_than_two_colons.2 "a".data "b".data "c:d".data
      (by decide) (by decide)

/-! ## Claim C7 -/
theorem except_bind_ok {α β γ : Type} (a : α) (f : α → Except γ β) :
    (Except.ok a >>= f) = f a := rfl

theorem except_bind_error {α β γ : Type} (e : γ) (f : α → Except γ β) :
    (Except.error e >>= f : Except γ β) = Except.error e := rfl

theorem parseStep_skip (acc : List Task × List Frame) (l : Str)
    (h : pyStrip l = [] ∨ (pyStrip l).head? = some '#') :
    parseStep acc l = .ok acc := by
  unfold parseStep
  rcases h with h | h
  · rw [if_pos h]
  · by_cases h0 : pyStrip l = []
    · rw [if_pos h0]
    · rw [if_neg h0, if_pos h]

theorem parseStep_invalid (acc : List Task × List Frame) (raw : Str)
    (h1 : pyStrip raw ≠ []) (h2 : (pyStrip raw).head? ≠ some '#')
    (hs : split2 (raw.dropWhile isPySpace) = none) :
    parseStep acc raw = .error (.invalidLine raw) := by
  unfold parseStep
  rw [if_neg h1, if_neg h2]
  simp only
  rw [hs]

theorem parseStep_nested (roots : List Task) (stack : List Frame) (raw : Str)
    (h1 : pyStrip raw ≠ []) (h2 : (pyStrip raw).head? ≠ some '#')
    (hsplit : split2 (raw.dropWhile isPySpace) ≠ none)
    (hd : lineDepth raw ≠ 0) (hlen : stack.length < lineDepth raw) :
    parseStep (roots, stack) raw = .error (.nestedTooDeeply raw) := by
  unfold lineDepth at hd hlen
  unfold parseStep
  rw [if_neg h1, if_neg h2]
  simp only
  cases hs : split2 (raw.dropWhile isPySpace) with
  | none => exact absurd hs hsplit
  | some x =>
    obtain ⟨n, s, u⟩ := x
    simp only
    rw [if_neg hd, if_pos hlen]

theorem foldl_parse_skips (pre : List Str) : ∀ (acc : List Task × List Frame),
    (∀ l ∈ pre, pyStrip l = [] ∨ (pyStrip l).head? = some '#') →
    pre.foldlM parseStep acc = .ok acc := by
  induction pre with
  | nil =>
    intro acc _
    rfl
  | cons x xs ih =>
    intro acc h
    rw [List.foldlM_cons, parseStep_skip acc x (h x (by simp)), except_bind_ok]
    exact ih acc (fun l hl => h l (by simp [hl]))

/-- C7. A task line whose computed depth exceeds the current stack
length (it skips an indentation level, so no parent exists at `depth-1`)
makes the parser raise the `Nested too deeply` error carrying that line;
in particular a file whose very first task line has depth ≥ 1 fails with a
`ValueError` (`Invalid line` if it is also short of `:`, else
`Nested too deeply`). -/
theorem C7_nested_too_deeply :
    (∀ (roots : List Task) (stack : List Frame) (raw : Str),
      pyStrip raw ≠ [] → (pyStrip raw).head? ≠ some '#' →
      split2 (raw.dropWhile isPySpace) ≠ none →
      lineDepth raw ≠ 0 → stack.length < lineDepth raw →
      parseStep (roots, stack) raw = .error (.nestedTooDeeply raw)) ∧
    (∀ (pre : List Str) (raw : Str) (rest : List Str),
      (∀ l ∈ pre, pyStrip l = [] ∨ (pyStrip l).head? = some '#') →
      pyStrip raw ≠ [] → (pyStrip raw).head? ≠ some '#' →
      lineDepth raw ≠ 0 →
      parseTasks (pre ++ raw :: rest) = .error (.invalidLine raw) ∨
      parseTasks (pre ++ raw :: rest) = .error (.nestedTooDeeply raw)) := by
  constructor
  · exact parseStep_nested
  · intro pre raw rest hpre h1 h2 hd
    have hfold : (pre ++ raw :: rest).foldlM parseStep ([], [])
        = (raw :: rest).foldlM parseStep ([], []) := by
      rw [List.foldlM_append, foldl_parse_skips pre ([], []) hpre, except_bind_ok]
    cases hs : split2 (raw.dropWhile isPySpace) with
    | none =>
      left
      unfold parseTasks
      rw [hfold, List.foldlM_cons, parseStep_invalid ([], []) raw h1 h2 hs,
        except_bind_error, except_bind_error]
    | some x =>
      right
      unfold parseTasks
      rw [hfold, List.foldlM_cons,
        parseStep_nested [] [] raw h1 h2 (by rw [hs]; exact fun h => Option.noConfusion h)
          hd (by simpa using Nat.pos_of_ne_zero hd),
        except_bind_error, except_bind_error]

/-- Witness for C7: the file whose single line is `    X:OPEN:` (depth 1,
no preceding depth-0 task) fails with `Nested too deeply`. -/
theorem C7_nested_too_deeply_witness :
    parseTasks ([] ++ "    X:OPEN:".data :: []) = .error (.invalidLine "    X:OPEN:".data) ∨
    parseTasks ([] ++ "    X:OPEN:".data :: []) = .error (.nestedTooDeeply "    X:OPEN:".data) :=
  C7_nested_too_deeply.2 [] "    X:OPEN:".data [] (by simp) (by decide) (by decide)
    (by decide)

/-! ## `pyStrip` structure lemmas -/
theorem pyStrip_eq_rdropWhile (s : Str) :
    pyStrip s = List.rdropWhile isPySpace (s.dropWhile isPySpace) := rfl

theorem pyStrip_subset (s : Str) : ∀ c, c ∈ pyStrip s → c ∈ s := by
  intro c hc
  rw [pyStrip_eq_rdropWhile] at hc
  exact (List.dropWhile_suffix isPySpace).subset
    ((List.rdropWhile_prefix isPySpace (s.dropWhile isPySpace)).subset hc)

theorem dropWhile_eq_self_of_strip_eq (l : Str) (h : pyStrip l = l) :
    l.dropWhile isPySpace = l := by
  have h1 : (pyStrip l).length ≤ (l.dropWhile isPySpace).length :=
    (List.rdropWhile_prefix isPySpace (l.dropWhile isPySpace)).length_le
  have h2 : (l.dropWhile isPySpace).length ≤ l.length :=
    (List.dropWhile_suffix isPySpace).length_le
  rw [h] at h1
  exact (List.dropWhile_suffix isPySpace).eq_of_length (by omega)

theorem rdropWhile_eq_self_of_strip_eq (l : Str) (h : pyStrip l = l) :
    List.rdropWhile isPySpace l = l := by
  have h0 := dropWhile_eq_self_of_strip_eq l h
  rw [pyStrip_eq_rdropWhile, h0] at h
  exact h

theorem pyStrip_eq_self_of (l : Str)
    (hh : ∀ c, l.head? = some c → isPySpace c = false)
    (ht : ∀ c, l.getLast? = some c → isPySpace c = false) : pyStrip l = l := by
  have h1 : l.dropWhile isPySpace = l := by
    cases l with
    | nil => rfl
    | cons x xs =>
      rw [List.dropWhile_cons_of_neg]
      rw [hh x rfl]
      exact Bool.false_ne_true
  rw [pyStrip_eq_rdropWhile, h1]
  rw [List.rdropWhile_eq_self_iff]
  intro hl
  rw [ht (l.getLast hl) (List.getLast?_eq_getLast l hl ▸ rfl)]
  exact Bool.false_ne_true

theorem strip_eq_head_not_space (l : Str) (h : pyStrip l = l) :
    ∀ c, l.head? = some c → isPySpace c = false := by
  intro c hc
  have h1 := dropWhile_eq_self_of_strip_eq l h
  cases l with
  | nil => cases hc
  | cons x xs =>
    obtain rfl : x = c := by cases hc; rfl
    by_contra hp
    rw [List.dropWhile_cons_of_pos (by simpa using hp)] at h1
    have hle : (List.dropWhile isPySpace xs).length ≤ xs.length :=
      (List.dropWhile_suffix isPySpace).length_le
    rw [h1, List.length_cons] at hle
    omega

theorem strip_eq_last_not_space (l : Str) (h : pyStrip l = l) :
    ∀ c, l.getLast? = some c → isPySpace c = false := by
  intro c hc
  have h1 := rdropWhile_eq_self_of_strip_eq l h
  have hl : l ≠ [] := by
    intro e
    subst e
    cases hc
  have hlast := List.rdropWhile_eq_self_iff.mp h1 hl
  rw [List.getLast?_eq_getLast l hl, Option.some.injEq] at hc
  rw [← hc]
  simpa using hlast

theorem pyStrip_idem (s : Str) : pyStrip (pyStrip s) = pyStrip s := by
  apply pyStrip_eq_self_of
  · intro c hc
    have h1 : (s.dropWhile isPySpace).head? = some c := by
      have hpre := List.rdropWhile_prefix isPySpace (s.dropWhile isPySpace)
      rw [pyStrip_eq_rdropWhile] at hc
      obtain ⟨rest, hrest⟩ := hpre
      rw [← hrest]
      cases hds : List.rdropWhile isPySpace (s.dropWhile isPySpace) with
      | nil => rw [hds] at hc; cases hc
      | cons x xs =>
        rw [hds] at hc
        obtain rfl : x = c := by cases hc; rfl
        rfl
    have hne2 : s.dropWhile isPySpace ≠ [] := by
      intro e
      rw [e] at h1
      cases h1
    have hnot := List.head_dropWhile_not isPySpace s hne2
    have h3 : (s.dropWhile isPySpace).head hne2 = c := by
      have h2 := List.head?_eq_head hne2
      rw [h2, Option.some.injEq] at h1
      exact h1
    rw [h3] at hnot
    simpa using hnot
  · intro c hc
    rw [pyStrip_eq_rdropWhile] at hc
    have hne : List.rdropWhile isPySpace (s.dropWhile isPySpace) ≠ [] := by
      intro e
      rw [e] at hc
      cases hc
    have hlast := List.rdropWhile_last_not isPySpace (s.dropWhile isPySpace) hne
    rw [List.getLast?_eq_getLast _ hne, Option.some.injEq] at hc
    rw [hc] at hlast
    simpa using hlast

theorem rdropWhile_head? (l : Str) (c : Char) (h : l.head? = some c)
    (hc : isPySpace c = false) :
    (List.rdropWhile isPySpace l).head? = some c := by
  have hcl : c ∈ l := by
    cases l with
    | nil => cases h
    | cons x xs =>
      rw [List.head?_cons, Option.some.injEq] at h
      rw [← h]
      exact List.mem_cons_self x xs
  have hne : List.rdropWhile isPySpace l ≠ [] := by
    rw [Ne, List.rdropWhile_eq_nil_iff]
    intro hall
    have hcc := hall c hcl
    rw [hc] at hcc
    cases hcc
  obtain ⟨rest, hrest⟩ := List.rdropWhile_prefix isPySpace l
  cases hd : List.rdropWhile isPySpace l with
  | nil => exact absurd hd hne
  | cons y ys =>
    rw [hd, List.cons_append] at hrest
    rw [← hrest, List.head?_cons, Option.some.injEq] at h
    rw [List.head?_cons, h]

theorem pyStrip_head_of_not_space (l : Str) (c : Char) (h : l.head? = some c)
    (hc : isPySpace c = false) : (pyStrip l).head? = some c := by
  rw [pyStrip_eq_rdropWhile]
  have hdw : l.dropWhile isPySpace = l := by
    cases l with
    | nil => rfl
    | cons x xs =>
      rw [List.head?_cons, Option.some.injEq] at h
      refine List.dropWhile_cons_of_neg ?_
      rw [h, hc]
      exact Bool.false_ne_true
  rw [hdw]
  exact rdropWhile_head? l c h hc

theorem split2_eq_some (l n s u : Str) (h : split2 l = some (n, s, u)) :
    l = n ++ ':' :: (s ++ ':' :: u) ∧ ':' ∉ n ∧ ':' ∉ s := by
  unfold split2 at h
  cases h1 : splitFirst? ':' l with
  | none => rw [h1] at h; cases h
  | some p =>
    rw [h1] at h
    obtain ⟨a, rest⟩ := p
    simp only at h
    cases h2 : splitFirst? ':' rest with
    | none => rw [h2] at h; cases h
    | some q =>
      rw [h2] at h
      obtain ⟨b, c⟩ := q
      simp only [Option.some.injEq, Prod.mk.injEq] at h
      obtain ⟨rfl, rfl, rfl⟩ := h
      obtain ⟨rfl, hn2⟩ := splitFirst?_eq_some ':' l a rest h1
      obtain ⟨rfl, hs2⟩ := splitFirst?_eq_some ':' rest b c h2
      exact ⟨rfl, hn2, hs2⟩

/-- The three fields produced by the parser for a non-skipped line of a
newline-free raw string are well-formed in the sense of
`nameOk`/`statusOk`/`fieldOk`. -/
theorem parsed_fields_ok (raw n s u : Str)
    (hnl : '\n' ∉ raw)
    (h1 : pyStrip raw ≠ []) (h2 : (pyStrip raw).head? ≠ some '#')
    (hsplit : split2 (raw.dropWhile isPySpace) = some (n, s, u)) :
    nameOk (pyStrip n) = true ∧
    statusOk (if pyStrip s = [] then STATUS_DEFAULT else pyStrip s) = true ∧
    fieldOk (pyStrip u) = true := by
  obtain ⟨hcontent, hn, hs⟩ := split2_eq_some _ n s u hsplit
  have hsubraw : ∀ c, c ∈ raw.dropWhile isPySpace → c ∈ raw :=
    fun c hc => (List.dropWhile_suffix isPySpace).subset hc
  have hnsub : ∀ c, c ∈ n → c ∈ raw := by
    intro c hc
    exact hsubraw c (by rw [hcontent]; simp [hc])
  have hssub : ∀ c, c ∈ s → c ∈ raw := by
    intro c hc
    exact hsubraw c (by rw [hcontent]; simp [hc])
  have husub : ∀ c, c ∈ u → c ∈ raw := by
    intro c hc
    exact hsubraw c (by rw [hcontent]; simp [hc])
  have fieldOf : ∀ x : Str, (∀ c, c ∈ x → c ∈ raw) → fieldOk (pyStrip x) = true := by
    intro x hx
    unfold fieldOk
    rw [Bool.and_eq_true]
    constructor
    · simp [pyStrip_idem]
    · simp only [Bool.not_eq_true', decide_eq_false_iff_not]
      intro hmem
      exact hnl (hx _ (pyStrip_subset x _ hmem))
  refine ⟨?_, ?_, fieldOf u husub⟩
  · unfold nameOk
    rw [Bool.and_eq_true, Bool.and_eq_true]
    refine ⟨⟨fieldOf n hnsub, ?_⟩, ?_⟩
    · simp only [Bool.not_eq_true', decide_eq_false_iff_not]
      intro hmem
      exact hn (pyStrip_subset n ':' hmem)
    · cases hn0 : n with
      | nil => decide
      | cons x xs =>
        have hcontent_ne : raw.dropWhile isPySpace ≠ [] := by
          rw [hcontent, hn0]
          simp
        have hxd : (raw.dropWhile isPySpace).head? = some x := by
          rw [hcontent, hn0]
          rfl
        have hxspace : isPySpace x = false := by
          have hh := List.head_dropWhile_not isPySpace raw hcontent_ne
          have hx2 : (raw.dropWhile isPySpace).head hcontent_ne = x := by
            have h3 := List.head?_eq_head hcontent_ne
            rw [h3, Option.some.injEq] at hxd
            exact hxd
          rw [hx2] at hh
          simpa using hh
        have hpstrip : (pyStrip raw).head? = some x := by
          rw [pyStrip_eq_rdropWhile]
          exact rdropWhile_head? _ x hxd hxspace
        have hxhash : x ≠ '#' := by
          intro e
          rw [e] at hpstrip
          exact h2 hpstrip
        have hnhead : (pyStrip (x :: xs)).head? = some x :=
          pyStrip_head_of_not_space (x :: xs) x rfl hxspace
        rw [hnhead]
        simp [hxhash]
  · unfold statusOk
    by_cases hse : pyStrip s = []
    · rw [if_pos hse]
      decide
    · rw [if_neg hse]
      rw [Bool.and_eq_true, Bool.and_eq_true]
      refine ⟨⟨fieldOf s hssub, ?_⟩, by simpa using hse⟩
      simp only [Bool.not_eq_true', decide_eq_false_iff_not]
      intro hmem
      exact hs (pyStrip_subset s ':' hmem)

theorem wfL_append (d : Nat) (xs ys : List Task) :
    wfL d (xs ++ ys) = true ↔ wfL d xs = true ∧ wfL d ys = true := by
  simp only [wfL_iff, List.mem_append]
  constructor
  · intro h
    exact ⟨fun t ht => h t (Or.inl ht), fun t ht => h t (Or.inr ht)⟩
  · intro h t ht
    exact ht.elim (h.1 t) (h.2 t)

theorem rollUpL_append (xs ys : List Task) :
    rollUpL (xs ++ ys) = true ↔ rollUpL xs = true ∧ rollUpL ys = true := by
  simp only [rollUpL_iff, List.mem_append]
  constructor
  · intro h
    exact ⟨fun t ht => h t (Or.inl ht), fun t ht => h t (Or.inr ht)⟩
  · intro h t ht
    exact ht.elim (h.1 t) (h.2 t)

theorem depthOkL_append (d : Nat) (xs ys : List Task) :
    depthOkL d (xs ++ ys) = true ↔ depthOkL d xs = true ∧ depthOkL d ys = true := by
  simp only [depthOkL_iff, List.mem_append]
  constructor
  · intro h
    exact ⟨fun t ht => h t (Or.inl ht), fun t ht => h t (Or.inr ht)⟩
  · intro h t ht
    exact ht.elim (h.1 t) (h.2 t)

theorem wfT_toTask (f : Frame) (hf : frameFieldsOk f = true)
    (hk : wfL (f.depth + 1) f.kids = true) :
    wfT f.depth f.toTask = true := by
  obtain ⟨n, st, u, d, kids⟩ := f
  simp only [frameFieldsOk, Bool.and_eq_true] at hf
  simp only [Frame.toTask, wfT, Bool.and_eq_true] at *
  exact ⟨⟨⟨⟨hf.1.1, hf.1.2⟩, hf.2⟩, by simp⟩, hk⟩

theorem closeN_length : ∀ (k : Nat) (stack : List Frame) (roots : List Task),
    (closeN k stack roots).1.length = stack.length - k := by
  intro k
  induction k with
  | zero =>
    intro stack roots
    simp [closeN]
  | succ n ih =>
    intro stack roots
    cases stack with
    | nil => simp [closeN]
    | cons f rest =>
      cases rest with
      | nil =>
        show (closeN n [] (roots ++ [f.toTask])).1.length = _
        rw [ih]
        simp
      | cons g rest' =>
        show (closeN n (⟨g.name, g.status, g.due, g.depth, g.kids ++ [f.toTask]⟩ :: rest')
          (roots : List Task)).1.length = _
        rw [ih]
        simp only [List.length_cons]
        omega

theorem closeN_ok : ∀ (k : Nat) (stack : List Frame) (roots : List Task),
    stackOk stack = true → wfL 0 roots = true →
    stackOk (closeN k stack roots).1 = true ∧ wfL 0 (closeN k stack roots).2 = true := by
  intro k
  induction k with
  | zero =>
    intro stack roots h1 h2
    exact ⟨h1, h2⟩
  | succ n ih =>
    intro stack roots h1 h2
    cases stack with
    | nil => exact ⟨rfl, h2⟩
    | cons f rest =>
      simp only [stackOk, Bool.and_eq_true, decide_eq_true_eq] at h1
      obtain ⟨⟨⟨hf, hd⟩, hk⟩, hrest⟩ := h1
      cases rest with
      | nil =>
        show stackOk (closeN n [] (roots ++ [f.toTask])).1 = true ∧ _
        apply ih
        · rfl
        · rw [wfL_append]
          refine ⟨h2, ?_⟩
          have hw := wfT_toTask f hf hk
          rw [List.length_nil] at hd
          rw [hd] at hw
          simp only [wfL, Bool.and_eq_true]
          exact ⟨hw, trivial⟩
      | cons g rest' =>
        show stackOk (closeN n
          (⟨g.name, g.status, g.due, g.depth, g.kids ++ [f.toTask]⟩ :: rest') roots).1 = true ∧ _
        simp only [stackOk, Bool.and_eq_true, decide_eq_true_eq] at hrest
        obtain ⟨⟨⟨hg, hgd⟩, hgk⟩, hrest'⟩ := hrest
        apply ih
        · simp only [stackOk, Bool.and_eq_true, decide_eq_true_eq]
          refine ⟨⟨⟨hg, hgd⟩, ?_⟩, hrest'⟩
          rw [wfL_append]
          refine ⟨hgk, ?_⟩
          have hw := wfT_toTask f hf hk
          have hfd : f.depth = g.depth + 1 := by
            rw [hd, List.length_cons, hgd]
          rw [hfd] at hw
          simp only [wfL, Bool.and_eq_true]
          exact ⟨hw, trivial⟩
        · exact h2

theorem closeTo_ok (target : Nat) (stack : List Frame) (roots : List Task)
    (h1 : stackOk stack = true) (h2 : wfL 0 roots = true) :
    stackOk (closeTo target stack roots).1 = true ∧
    wfL 0 (closeTo target stack roots).2 = true ∧
    (closeTo target stack roots).1.length = stack.length - (stack.length - target) := by
  obtain ⟨a, b⟩ := closeN_ok (stack.length - target) stack roots h1 h2
  exact ⟨a, b, closeN_length (stack.length - target) stack roots⟩

/-- What `parseStep` does on a task line (neither blank nor a comment)
whose content splits into three parts. -/
theorem parseStep_eq (roots : List Task) (stack : List Frame) (raw n s u : Str)
    (h1 : pyStrip raw ≠ []) (h2 : (pyStrip raw).head? ≠ some '#')
    (hsplit : split2 (raw.dropWhile isPySpace) = some (n, s, u)) :
    parseStep (roots, stack) raw =
      (if lineDepth raw = 0 then
        .ok ((closeTo 0 stack roots).2,
          [⟨pyStrip n, if pyStrip s = [] then STATUS_DEFAULT else pyStrip s,
            pyStrip u, lineDepth raw, []⟩])
      else if stack.length < lineDepth raw then
        .error (.nestedTooDeeply raw)
      else
        .ok ((closeTo (lineDepth raw) stack roots).2,
          ⟨pyStrip n, if pyStrip s = [] then STATUS_DEFAULT else pyStrip s,
            pyStrip u, lineDepth raw, []⟩ :: (closeTo (lineDepth raw) stack roots).1)) := by
  unfold parseStep lineDepth
  rw [if_neg h1, if_neg h2]
  simp only
  rw [hsplit]

theorem parseStep_ok_invariant (roots : List Task) (stack : List Frame) (raw : Str)
    (hnl : '\n' ∉ raw) (hro : wfL 0 roots = true) (hst : stackOk stack = true) :
    ∀ st', parseStep (roots, stack) raw = .ok st' →
      wfL 0 st'.1 = true ∧ stackOk st'.2 = true := by
  intro st' h
  by_cases h1 : pyStrip raw = []
  · rw [parseStep_skip _ _ (Or.inl h1)] at h
    cases h
    exact ⟨hro, hst⟩
  by_cases h2 : (pyStrip raw).head? = some '#'
  · rw [parseStep_skip _ _ (Or.inr h2)] at h
    cases h
    exact ⟨hro, hst⟩
  cases hsplit : split2 (raw.dropWhile isPySpace) with
  | none =>
    rw [parseStep_invalid _ _ h1 h2 hsplit] at h
    cases h
  | some x =>
    obtain ⟨n, s, u⟩ := x
    rw [parseStep_eq roots stack raw n s u h1 h2 hsplit] at h
    obtain ⟨hname, hstat, hdue⟩ := parsed_fields_ok raw n s u hnl h1 h2 hsplit
    by_cases hd : lineDepth raw = 0
    · rw [if_pos hd] at h
      cases h
      refine ⟨(closeTo_ok 0 stack roots hst hro).2.1, ?_⟩
      simp only [stackOk, frameFieldsOk, Bool.and_eq_true, decide_eq_true_eq]
      refine ⟨⟨⟨⟨⟨hname, hstat⟩, hdue⟩, by simp [hd]⟩, ?_⟩, trivial⟩
      simp [wfL]
    · rw [if_neg hd] at h
      by_cases hlen : stack.length < lineDepth raw
      · rw [if_pos hlen] at h
        cases h
      · rw [if_neg hlen] at h
        cases h
        obtain ⟨hok1, hok2, hlen2⟩ := closeTo_ok (lineDepth raw) stack roots hst hro
        refine ⟨hok2, ?_⟩
        simp only [stackOk, frameFieldsOk, Bool.and_eq_true, decide_eq_true_eq]
        refine ⟨⟨⟨⟨⟨hname, hstat⟩, hdue⟩, ?_⟩, ?_⟩, hok1⟩
        · rw [hlen2]
          omega
        · simp [wfL]

theorem foldl_parse_ok_invariant : ∀ (lines : List Str) (st st' : List Task × List Frame),
    (∀ l ∈ lines, '\n' ∉ l) →
    wfL 0 st.1 = true → stackOk st.2 = true →
    lines.foldlM parseStep st = .ok st' →
    wfL 0 st'.1 = true ∧ stackOk st'.2 = true := by
  intro lines
  induction lines with
  | nil =>
    intro st st' _ h1 h2 h
    cases h
    exact ⟨h1, h2⟩
  | cons x xs ih =>
    intro st st' hnl h1 h2 h
    rw [List.foldlM_cons] at h
    cases hx : parseStep st x with
    | error e =>
      rw [hx, except_bind_error] at h
      cases h
    | ok stm =>
      rw [hx, except_bind_ok] at h
      obtain ⟨roots, stack⟩ := st
      obtain ⟨hm1, hm2⟩ := parseStep_ok_invariant roots stack x (hnl x (by simp)) h1 h2 stm hx
      exact ih stm st' (fun l hl => hnl l (by simp [hl])) hm1 hm2 h

/-! ## `walkRecalc`: establishes the roll-up invariant, preserves `wf` -/
theorem statusOk_recalcFrom (ss : List Str) : statusOk (recalcFrom ss) = true := by
  rcases recalcFrom_mem ss with h | h | h <;> rw [h] <;> decide

theorem rollUpT_recalc (n s u : Str) (d : Nat) (cs : List Task)
    (h : rollUpL cs = true) :
    rollUpT (Task.recalc_status_from_children (.mk n s u d cs)) = true := by
  by_cases he : cs.isEmpty
  · simp only [Task.recalc_status_from_children, if_pos he]
    simp only [rollUpT, Bool.and_eq_true]
    exact ⟨by simp [he], h⟩
  · simp only [Task.recalc_status_from_children, if_neg he]
    simp only [rollUpT, Bool.and_eq_true]
    exact ⟨by simp, h⟩

theorem walkRecalc_rollUp : ∀ t, rollUpT (walkRecalc t) = true := by
  intro t
  induction t using Task.inductionOn with
  | h n s u d cs ih =>
    show rollUpT (Task.recalc_status_from_children (.mk n s u d (walkRecalcList cs))) = true
    apply rollUpT_recalc
    rw [walkRecalcList_eq, rollUpL_iff]
    intro t ht
    obtain ⟨c, hc, rfl⟩ := List.mem_map.mp ht
    exact ih c hc

theorem walkRecalcList_rollUp (ts : List Task) : rollUpL (walkRecalcList ts) = true := by
  rw [walkRecalcList_eq, rollUpL_iff]
  intro t ht
  obtain ⟨c, _, rfl⟩ := List.mem_map.mp ht
  exact walkRecalc_rollUp c

theorem walkRecalc_wf : ∀ t, ∀ d, wfT d t = true → wfT d (walkRecalc t) = true := by
  intro t
  induction t using Task.inductionOn with
  | h n s u dep cs ih =>
    intro d hw
    simp only [wfT, Bool.and_eq_true, decide_eq_true_eq] at hw
    obtain ⟨⟨⟨⟨hname, hstat⟩, hdue⟩, hdep⟩, hkids⟩ := hw
    show wfT d (Task.recalc_status_from_children (.mk n s u dep (walkRecalcList cs))) = true
    have hkids' : wfL (d + 1) (walkRecalcList cs) = true := by
      rw [walkRecalcList_eq, wfL_iff]
      intro t ht
      obtain ⟨c, hc, rfl⟩ := List.mem_map.mp ht
      exact ih c hc (d + 1) ((wfL_iff (d + 1) cs).mp hkids c hc)
    by_cases he : (walkRecalcList cs).isEmpty
    · simp only [Task.recalc_status_from_children, if_pos he]
      simp only [wfT, Bool.and_eq_true, decide_eq_true_eq]
      exact ⟨⟨⟨⟨hname, hstat⟩, hdue⟩, hdep⟩, hkids'⟩
    · simp only [Task.recalc_status_from_children, if_neg he]
      simp only [wfT, Bool.and_eq_true, decide_eq_true_eq]
      exact ⟨⟨⟨⟨hname, statusOk_recalcFrom _⟩, hdue⟩, hdep⟩, hkids'⟩

theorem walkRecalcList_wf (d : Nat) (ts : List Task) (h : wfL d ts = true) :
    wfL d (walkRecalcList ts) = true := by
  rw [walkRecalcList_eq, wfL_iff]
  intro t ht
  obtain ⟨c, hc, rfl⟩ := List.mem_map.mp ht
  exact walkRecalc_wf c d ((wfL_iff d ts).mp h c hc)

theorem map_eq_self_of {α : Type} (f : α → α) : ∀ (ts : List α),
    (∀ c ∈ ts, f c = c) → ts.map f = ts := by
  intro ts h
  induction ts with
  | nil => rfl
  | cons x xs ih =>
    rw [List.map_cons, h x (by simp), ih (fun c hc => h c (by simp [hc]))]

theorem walkRecalc_id_of_rollUp : ∀ t, rollUpT t = true → walkRecalc t = t := by
  intro t
  induction t using Task.inductionOn with
  | h n s u d cs ih =>
    intro h
    simp only [rollUpT, Bool.and_eq_true, Bool.or_eq_true, decide_eq_true_eq] at h
    obtain ⟨hself, hkids⟩ := h
    have hcs : walkRecalcList cs = cs := by
      rw [walkRecalcList_eq]
      exact map_eq_self_of walkRecalc cs
        (fun c hc => ih c hc ((rollUpL_iff cs).mp hkids c hc))
    show Task.recalc_status_from_children (.mk n s u d (walkRecalcList cs)) = _
    rw [hcs]
    apply recalc_of_derived
    intro hne
    rcases hself with he | hd
    · exact absurd (by simpa [List.isEmpty_iff] using he) (by simpa using hne)
    · simpa using hd

theorem walkRecalcList_id_of_rollUp (ts : List Task) (h : rollUpL ts = true) :
    walkRecalcList ts = ts := by
  rw [walkRecalcList_eq]
  exact map_eq_self_of walkRecalc ts
    (fun c hc => walkRecalc_id_of_rollUp c ((rollUpL_iff ts).mp h c hc))

/-! ## Parse output: well-formedness and the roll-up invariant -/
theorem splitLines_no_newline : ∀ (text : Str), ∀ l ∈ splitLines text, '\n' ∉ l := by
  intro text
  induction text with
  | nil =>
    intro l hl
    simp only [splitLines, List.mem_singleton] at hl
    subst hl
    simp
  | cons c rest ih =>
    intro l hl
    simp only [splitLines] at hl
    by_cases hc : c = '\n'
    · rw [if_pos hc] at hl
      rcases List.mem_cons.mp hl with rfl | hl2
      · simp
      · exact ih l hl2
    · rw [if_neg hc] at hl
      cases hsr : splitLines rest with
      | nil =>
        rw [hsr] at hl
        simp only [List.mem_singleton] at hl
        subst hl
        simp only [List.mem_singleton]
        exact fun e => hc e.symm
      | cons l0 ls =>
        rw [hsr] at hl
        rcases List.mem_cons.mp hl with rfl | hl2
        · intro hmem
          rcases List.mem_cons.mp hmem with he | hmem2
          · exact hc he.symm
          · exact ih l0 (by rw [hsr]; simp) hmem2
        · exact ih l (by rw [hsr]; exact List.mem_cons_of_mem l0 hl2)

theorem parseTasks_ok_elim (lines : List Str) (F : List Task)
    (h : parseTasks lines = .ok F) :
    ∃ roots stack, lines.foldlM parseStep ([], []) = .ok (roots, stack) ∧
      F = walkRecalcList (closeTo 0 stack roots).2 := by
  unfold parseTasks at h
  cases hf : lines.foldlM parseStep ([], []) with
  | error e =>
    rw [hf, except_bind_error] at h
    cases h
  | ok st =>
    rw [hf, except_bind_ok] at h
    obtain ⟨roots, stack⟩ := st
    exact ⟨roots, stack, rfl, ((Except.ok.injEq _ _).mp h).symm⟩

theorem parseTasks_wf (lines : List Str) (F : List Task)
    (hnl : ∀ l ∈ lines, '\n' ∉ l) (h : parseTasks lines = .ok F) :
    wfL 0 F = true ∧ rollUpL F = true := by
  obtain ⟨roots, stack, hf, rfl⟩ := parseTasks_ok_elim lines F h
  obtain ⟨h1, h2⟩ := foldl_parse_ok_invariant lines ([], []) (roots, stack) hnl rfl rfl hf
  obtain ⟨_, hroots, _⟩ := closeTo_ok 0 stack roots h2 h1
  exact ⟨walkRecalcList_wf 0 _ hroots, walkRecalcList_rollUp _⟩

theorem parse_file_wf (text : Str) (F : List Task)
    (h : parse_tasks_from_file (.content text) = .ok F) :
    wfL 0 F = true ∧ rollUpL F = true :=
  parseTasks_wf (splitLines text) F (splitLines_no_newline text) h

theorem rollUp_flattenTask : ∀ (t : Task), rollUpT t = true →
    ∀ x ∈ flattenTask t, rollUpT x = true := by
  intro t
  induction t using Task.inductionOn with
  | h n s u d cs ih =>
    intro h x hx
    simp only [flattenTask] at hx
    rcases List.mem_cons.mp hx with rfl | hx2
    · exact h
    · rw [flattenTaskList_eq] at hx2
      obtain ⟨c, hc, hxc⟩ := List.mem_flatMap.mp hx2
      have hcr : rollUpT c = true := by
        simp only [rollUpT, Bool.and_eq_true] at h
        exact (rollUpL_iff cs).mp h.2 c hc
      exact ih c hc hcr x hxc

theorem rollUp_flatten_forest (F : List Task) (h : rollUpL F = true) :
    ∀ x ∈ flatten_tasks F, rollUpT x = true := by
  intro x hx
  unfold flatten_tasks at hx
  rw [flattenTaskList_eq] at hx
  obtain ⟨t, ht, hxt⟩ := List.mem_flatMap.mp hx
  exact rollUp_flattenTask t ((rollUpL_iff F).mp h t ht) x hxt

/-- Reading of the stored roll-up equation as the spec's three-way
classification, for a task with children. -/
theorem rollUpT_spec (t : Task) (h : rollUpT t = true) (hc : t.children ≠ []) :
    (t.status = sDONE ↔ ∀ c ∈ t.children, c.status = sDONE) ∧
    (t.status = sOPEN ↔ ∀ c ∈ t.children, c.status = sOPEN) ∧
    (t.status = sDONE ∨ t.status = sOPEN ∨ t.status = sIN_PROGRESS) := by
  obtain ⟨n, s, u, d, cs⟩ := t
  simp only [children_mk, status_mk] at hc ⊢
  simp only [rollUpT, Bool.and_eq_true, Bool.or_eq_true, decide_eq_true_eq] at h
  have hself : s = recalcFrom (cs.map Task.status) := by
    rcases h.1 with he | hs
    · exact absurd (by simpa [List.isEmpty_iff] using he) hc
    · exact hs
  have hall : ∀ (st : Str), ((cs.map Task.status).all (· = st) = true)
      ↔ ∀ c ∈ cs, c.status = st := by
    intro st
    simp [List.all_eq_true]
  unfold recalcFrom at hself
  by_cases hAllD : (cs.map Task.status).all (· = sDONE) = true
  · rw [if_pos hAllD] at hself
    subst hself
    have hD : ∀ c ∈ cs, c.status = sDONE := (hall sDONE).mp hAllD
    refine ⟨⟨fun _ => hD, fun _ => rfl⟩, ?_, Or.inl rfl⟩
    constructor
    · intro he
      exact absurd he (by decide)
    · intro hO
      obtain ⟨c0, hc0⟩ : ∃ c0, c0 ∈ cs := by
        cases cs with
        | nil => exact absurd rfl hc
        | cons a b => exact ⟨a, by simp⟩
      have h1 := hD c0 hc0
      have h2 := hO c0 hc0
      rw [h1] at h2
      exact absurd h2 (by decide)
  · rw [if_neg hAllD] at hself
    by_cases hAllO : (cs.map Task.status).all (· = sOPEN) = true
    · rw [if_pos hAllO] at hself
      subst hself
      have hO : ∀ c ∈ cs, c.status = sOPEN := (hall sOPEN).mp hAllO
      refine ⟨?_, ⟨fun _ => hO, fun _ => rfl⟩, Or.inr (Or.inl rfl)⟩
      constructor
      · intro he
        exact absurd he (by decide)
      · intro hD
        exact absurd ((hall sDONE).mpr hD) hAllD
    · rw [if_neg hAllO] at hself
      subst hself
      refine ⟨?_, ?_, Or.inr (Or.inr rfl)⟩
      · constructor
        · intro he
          exact absurd he (by decide)
        · intro hD
          exact absurd ((hall sDONE).mpr hD) hAllD
      · constructor
        · intro he
          exact absurd he (by decide)
        · intro hO
          exact absurd ((hall sOPEN).mpr hO) hAllO

/-! ## Mutations preserve the roll-up and depth invariants -/
theorem rollUpL_set (cs : List Task) (i : Nat) (c' : Task) (h : rollUpL cs = true)
    (hc : rollUpT c' = true) : rollUpL (cs.set i c') = true := by
  rw [rollUpL_iff]
  intro t ht
  rcases List.mem_or_eq_of_mem_set ht with h1 | rfl
  · exact (rollUpL_iff cs).mp h t h1
  · exact hc

theorem depthOkL_set (d : Nat) (cs : List Task) (i : Nat) (c' : Task)
    (h : depthOkL d cs = true) (hc : depthOkT d c' = true) :
    depthOkL d (cs.set i c') = true := by
  rw [depthOkL_iff]
  intro t ht
  rcases List.mem_or_eq_of_mem_set ht with h1 | rfl
  · exact (depthOkL_iff d cs).mp h t h1
  · exact hc

theorem rollUpT_leaf (n s u : Str) (d : Nat) : rollUpT (.mk n s u d []) = true := by
  simp [rollUpT, rollUpL]

theorem withChildren_recalc_rollUp (t : Task) (cs : List Task)
    (h : rollUpL cs = true) :
    rollUpT (Task.recalc_status_from_children (t.withChildren cs)) = true := by
  obtain ⟨n, s, u, d, cs0⟩ := t
  exact rollUpT_recalc n s u d cs h

theorem togglePath_rollUp (p : List Nat) : ∀ (t t' : Task), rollUpT t = true →
    togglePath t p = some t' → rollUpT t' = true := by
  induction p with
  | nil =>
    intro t t' h htog
    simp only [togglePath] at htog
    by_cases hl : t.is_leaf = true
    · rw [if_pos hl, Option.some.injEq] at htog
      subst htog
      obtain ⟨n, s, u, d, cs⟩ := t
      obtain rfl : cs = [] := by simpa [Task.is_leaf, List.isEmpty_iff] using hl
      exact rollUpT_leaf n _ u d
    · rw [if_neg (by simpa using hl)] at htog
      cases htog
  | cons i p ih =>
    intro t t' h htog
    simp only [togglePath, Option.bind_eq_some, Option.map_eq_some'] at htog
    obtain ⟨c, hc, c', htog', rfl⟩ := htog
    have hcs : rollUpL t.children = true := by
      obtain ⟨n, s, u, d, cs⟩ := t
      simp only [rollUpT, Bool.and_eq_true] at h
      exact h.2
    have hcr : rollUpT c = true := (rollUpL_iff _).mp hcs c (List.getElem?_mem hc)
    exact withChildren_recalc_rollUp t _ (rollUpL_set t.children i c' hcs (ih c c' hcr htog'))

theorem addChildPath_rollUp (p : List Nat) : ∀ (t t' : Task) (nm du : Str),
    rollUpT t = true → addChildPath t p nm du = some t' → rollUpT t' = true := by
  induction p with
  | nil =>
    intro t t' nm du h hadd
    simp only [addChildPath, Option.some.injEq] at hadd
    subst hadd
    have hcs : rollUpL t.children = true := by
      obtain ⟨n, s, u, d, cs⟩ := t
      simp only [rollUpT, Bool.and_eq_true] at h
      exact h.2
    apply withChildren_recalc_rollUp
    rw [rollUpL_append]
    refine ⟨hcs, ?_⟩
    simp only [rollUpL, Bool.and_eq_true]
    exact ⟨rollUpT_leaf _ _ _ _, trivial⟩
  | cons i p ih =>
    intro t t' nm du h hadd
    simp only [addChildPath, Option.bind_eq_some, Option.map_eq_some'] at hadd
    obtain ⟨c, hc, c', hadd', rfl⟩ := hadd
    have hcs : rollUpL t.children = true := by
      obtain ⟨n, s, u, d, cs⟩ := t
      simp only [rollUpT, Bool.and_eq_true] at h
      exact h.2
    have hcr : rollUpT c = true := (rollUpL_iff _).mp hcs c (List.getElem?_mem hc)
    exact withChildren_recalc_rollUp t _
      (rollUpL_set t.children i c' hcs (ih c c' nm du hcr hadd'))

theorem toggle_preserves_rollUp (roots : List Task) (sel : Option (Nat × List Nat))
    (h : rollUpL roots = true) :
    rollUpL (action_toggle_status roots sel) = true := by
  cases sel with
  | none => exact h
  | some ip =>
    obtain ⟨i, p⟩ := ip
    simp only [action_toggle_status]
    cases hr : roots[i]? with
    | none => simpa [hr] using h
    | some r =>
      rw [Option.some_bind]
      cases ht : togglePath r p with
      | none => exact h
      | some r' =>
        simp only
        have hrr : rollUpT r = true := (rollUpL_iff _).mp h r (List.getElem?_mem hr)
        exact rollUpL_set roots i r' h (togglePath_rollUp p r r' hrr ht)

theorem add_preserves_rollUp (roots : List Task) (sel : Option (Nat × List Nat))
    (nm du : Str) (h : rollUpL roots = true) :
    rollUpL (add_subtask roots sel nm du) = true := by
  cases sel with
  | none =>
    simp only [add_subtask]
    rw [rollUpL_append]
    refine ⟨h, ?_⟩
    simp only [rollUpL, Bool.and_eq_true]
    exact ⟨rollUpT_leaf _ _ _ _, trivial⟩
  | some ip =>
    obtain ⟨i, p⟩ := ip
    simp only [add_subtask]
    cases hr : roots[i]? with
    | none => simpa [hr] using h
    | some r =>
      rw [Option.some_bind]
      cases ht : addChildPath r p nm du with
      | none => exact h
      | some r' =>
        simp only
        have hrr : rollUpT r = true := (rollUpL_iff _).mp h r (List.getElem?_mem hr)
        exact rollUpL_set roots i r' h (addChildPath_rollUp p r r' nm du hrr ht)

theorem wfT_depthOk : ∀ t, ∀ d, wfT d t = true → depthOkT d t = true := by
  intro t
  induction t using Task.inductionOn with
  | h n s u dep cs ih =>
    intro d hw
    simp only [wfT, Bool.and_eq_true, decide_eq_true_eq] at hw
    simp only [depthOkT, Bool.and_eq_true, decide_eq_true_eq]
    refine ⟨hw.1.2, ?_⟩
    rw [depthOkL_iff]
    intro c hc
    exact ih c hc (d + 1) ((wfL_iff (d + 1) cs).mp hw.2 c hc)

theorem wfL_depthOk (d : Nat) (ts : List Task) (h : wfL d ts = true) :
    depthOkL d ts = true := by
  rw [depthOkL_iff]
  intro t ht
  exact wfT_depthOk t d ((wfL_iff d ts).mp h t ht)

theorem depthOkT_recalc (n s u : Str) (dep d : Nat) (cs : List Task) :
    depthOkT d (Task.recalc_status_from_children (.mk n s u dep cs))
      = depthOkT d (.mk n s u dep cs) := by
  simp only [Task.recalc_status_from_children]
  split
  · rfl
  · simp only [depthOkT]

theorem addChildPath_depthOk (p : List Nat) : ∀ (t t' : Task) (nm du : Str) (d : Nat),
    depthOkT d t = true → addChildPath t p nm du = some t' → depthOkT d t' = true := by
  induction p with
  | nil =>
    intro t t' nm du d h hadd
    simp only [addChildPath, Option.some.injEq] at hadd
    subst hadd
    obtain ⟨n, s, u, dep, cs⟩ := t
    simp only [depthOkT, Bool.and_eq_true, decide_eq_true_eq] at h
    obtain ⟨rfl, hkids⟩ := h
    show depthOkT dep (Task.recalc_status_from_children
      (.mk n s u dep (cs ++ [Task.mk nm "OPEN".data du (dep + 1) []]))) = true
    rw [depthOkT_recalc]
    simp only [depthOkT, Bool.and_eq_true, decide_eq_true_eq]
    refine ⟨by trivial, ?_⟩
    rw [depthOkL_append]
    refine ⟨hkids, ?_⟩
    simp [depthOkT, depthOkL]
  | cons i p ih =>
    intro t t' nm du d h hadd
    simp only [addChildPath, Option.bind_eq_some, Option.map_eq_some'] at hadd
    obtain ⟨c, hc, c', hadd', rfl⟩ := hadd
    obtain ⟨n, s, u, dep, cs⟩ := t
    simp only [depthOkT, Bool.and_eq_true, decide_eq_true_eq] at h
    obtain ⟨rfl, hkids⟩ := h
    have hcd : depthOkT (dep + 1) c = true :=
      (depthOkL_iff _ _).mp hkids c (List.getElem?_mem hc)
    show depthOkT dep (Task.recalc_status_from_children
      (.mk n s u dep (cs.set i c'))) = true
    rw [depthOkT_recalc]
    simp only [depthOkT, Bool.and_eq_true, decide_eq_true_eq]
    exact ⟨by trivial,
      depthOkL_set (dep + 1) cs i c' hkids (ih c c' nm du (dep + 1) hcd hadd')⟩

theorem add_preserves_depthOk (roots : List Task) (sel : Option (Nat × List Nat))
    (nm du : Str) (h : depthOkL 0 roots = true) :
    depthOkL 0 (add_subtask roots sel nm du) = true := by
  cases sel with
  | none =>
    simp only [add_subtask]
    rw [depthOkL_append]
    exact ⟨h, by simp [depthOkT, depthOkL]⟩
  | some ip =>
    obtain ⟨i, p⟩ := ip
    simp only [add_subtask]
    cases hr : roots[i]? with
    | none => simpa [hr] using h
    | some r =>
      rw [Option.some_bind]
      cases ht : addChildPath r p nm du with
      | none => exact h
      | some r' =>
        simp only
        have hrr : depthOkT 0 r = true := (depthOkL_iff _ _).mp h r (List.getElem?_mem hr)
        exact depthOkL_set 0 roots i r' h (addChildPath_depthOk p r r' nm du 0 hrr ht)

/-! ## Claim C2 -/
/-- C2. The status roll-up invariant: it is established by
`parse_tasks_from_file`, preserved by `action_toggle_status` and by the
add-subtask action, and it means exactly that every task with children is
DONE iff all children are DONE, OPEN iff all children are OPEN, and
IN_PROGRESS otherwise (so it holds in particular for every ancestor of a
mutated node). -/
theorem C2_status_rollup :
    (∀ (text : Str) (F : List Task), parse_tasks_from_file (.content text) = .ok F →
      rollUpL F = true) ∧
    (∀ (roots : List Task) (sel : Option (Nat × List Nat)),
      rollUpL roots = true → rollUpL (action_toggle_status roots sel) = true) ∧
    (∀ (roots : List Task) (sel : Option (Nat × List Nat)) (nm du : Str),
      rollUpL roots = true → rollUpL (add_subtask roots sel nm du) = true) ∧
    (∀ (F : List Task), rollUpL F = true → ∀ t ∈ flatten_tasks F, t.children ≠ [] →
      (t.status = sDONE ↔ ∀ c ∈ t.children, c.status = sDONE) ∧
      (t.status = sOPEN ↔ ∀ c ∈ t.children, c.status = sOPEN) ∧
      (t.status = sDONE ∨ t.status = sOPEN ∨ t.status = sIN_PROGRESS)) := by
  refine ⟨fun text F h => (parse_file_wf text F h).2, toggle_preserves_rollUp,
    add_preserves_rollUp, ?_⟩
  intro F h t ht hc
  exact rollUpT_spec t (rollUp_flatten_forest F h t ht) hc

/-- Witness for C2: Scenario C — parsing `A:OPEN:` with children `B:DONE:`
and `C:OPEN:` yields a roll-up-consistent forest whose root is
IN_PROGRESS. -/
theorem C2_status_rollup_witness :
    rollUpL [Task.mk "A".data sIN_PROGRESS [] 0
      [Task.mk "B".data sDONE [] 1 [], Task.mk "C".data sOPEN [] 1 []]] = true :=
  C2_status_rollup.1 "A:OPEN:\n    B:DONE:\n    C:OPEN:\n".data
    [Task.mk "A".data sIN_PROGRESS [] 0
      [Task.mk "B".data sDONE [] 1 [], Task.mk "C".data sOPEN [] 1 []]] rfl

/-! ## Claim C9 -/
/-- C9. Depth invariant: after `parse_tasks_from_file` and after every
add-subtask action, every node's stored depth equals its parent's depth
plus one, and every root's depth is zero (`depthOkT d` states exactly
that for a node at level `d`). -/
theorem C9_depth_invariant :
    (∀ (text : Str) (F : List Task), parse_tasks_from_file (.content text) = .ok F →
      depthOkL 0 F = true) ∧
    (∀ (roots : List Task) (sel : Option (Nat × List Nat)) (nm du : Str),
      depthOkL 0 roots = true → depthOkL 0 (add_subtask roots sel nm du) = true) :=
  ⟨fun text F h => wfL_depthOk 0 F (parse_file_wf text F h).1, add_preserves_depthOk⟩

/-- Witness for C9: a parsed two-level file and a subsequent root
addition both satisfy the depth invariant. -/
theorem C9_depth_invariant_witness :
    depthOkL 0 [Task.mk "A".data sIN_PROGRESS [] 0
      [Task.mk "B".data sDONE [] 1 [], Task.mk "C".data sOPEN [] 1 []]] = true ∧
    depthOkL 0 (add_subtask [] none "Launch".data "2025-06-01".data) = true :=
  ⟨C9_depth_invariant.1 "A:OPEN:\n    B:DONE:\n    C:OPEN:\n".data
      [Task.mk "A".data sIN_PROGRESS [] 0
        [Task.mk "B".data sDONE [] 1 [], Task.mk "C".data sOPEN [] 1 []]] rfl,
   C9_depth_invariant.2 [] none "Launch".data "2025-06-01".data rfl⟩

/-- Any forest the application can reach — parsed from a file and then
mutated by any sequence of toggle-status and add-subtask actions —
satisfies the status roll-up invariant. -/
theorem reachable_rollUp : ∀ (F : List Task), Reachable F → rollUpL F = true := by
  intro F hR
  induction hR with
  | loaded text F h => exact (parse_file_wf text F h).2
  | toggled roots sel h ih => exact toggle_preserves_rollUp roots sel ih
  | added roots sel nm du h ih => exact add_preserves_rollUp roots sel nm du ih

/-! ## Claim C8 (amended) -/
/-- C8 amended. Every task *with children* in a forest produced by
`parse_tasks_from_file`, or obtained from such a forest by any sequence
of toggle-status and add-subtask mutations, has status among OPEN,
IN_PROGRESS, DONE (interior statuses are always derived); whenever the
parser consumes a task line whose status field trims to the empty
string, the task it creates carries the default status OPEN (Scenario B
is the concrete third conjunct); a leaf's stored non-blank status,
however, is kept verbatim and may lie outside the enumeration. -/
theorem C8_amended :
    (∀ (F : List Task), Reachable F →
      ∀ t ∈ flatten_tasks F, t.children ≠ [] →
        t.status = sOPEN ∨ t.status = sIN_PROGRESS ∨ t.status = sDONE) ∧
    (∀ (acc : List Task × List Frame) (line n s u : Str)
        (res : List Task × List Frame),
      pyStrip line ≠ [] → (pyStrip line).head? ≠ some '#' →
      split2 (line.dropWhile isPySpace) = some (n, s, u) →
      pyStrip s = [] →
      parseStep acc line = .ok res →
      res.2.head?.map Frame.status = some STATUS_DEFAULT) ∧
    parse_tasks_from_file (.content "Buy milk::".data)
      = .ok [Task.mk "Buy milk".data sOPEN [] 0 []] := by
  refine ⟨?_, ?_, rfl⟩
  · intro F hR t ht hc
    have h2 := rollUpT_spec t
      (rollUp_flatten_forest F (reachable_rollUp F hR) t ht) hc
    rcases h2.2.2 with h3 | h3 | h3
    · exact Or.inr (Or.inr h3)
    · exact Or.inl h3
    · exact Or.inr (Or.inl h3)
  · intro acc line n s u res h1 h2 hsp hse hok
    obtain ⟨roots, stack⟩ := acc
    rw [parseStep_eq roots stack line n s u h1 h2 hsp] at hok
    rw [if_pos hse] at hok
    by_cases hd : lineDepth line = 0
    · rw [if_pos hd] at hok
      cases hok
      rfl
    · rw [if_neg hd] at hok
      by_cases hlen : stack.length < lineDepth line
      · rw [if_pos hlen] at hok
        cases hok
      · rw [if_neg hlen] at hok
        cases hok
        rfl

/-- Witness for C8 (amended): after toggling leaf C in Scenario C's parse
result the interior root (now over children DONE and IN_PROGRESS) still
has status inside the enumeration, and a concrete blank-status line
`x::y` creates its task with the default status OPEN. -/
theorem C8_amended_witness :
    ((Task.mk "A".data sIN_PROGRESS [] 0
        [Task.mk "B".data sDONE [] 1 [],
         Task.mk "C".data sIN_PROGRESS [] 1 []]).status = sOPEN ∨
     (Task.mk "A".data sIN_PROGRESS [] 0
        [Task.mk "B".data sDONE [] 1 [],
         Task.mk "C".data sIN_PROGRESS [] 1 []]).status = sIN_PROGRESS ∨
     (Task.mk "A".data sIN_PROGRESS [] 0
        [Task.mk "B".data sDONE [] 1 [],
         Task.mk "C".data sIN_PROGRESS [] 1 []]).status = sDONE) ∧
    ((([], [(⟨"x".data, STATUS_DEFAULT, "y".data, 0, []⟩ : Frame)]) :
        List Task × List Frame).2.head?.map Frame.status
      = some STATUS_DEFAULT) :=
  ⟨C8_amended.1
    (action_toggle_status
      [Task.mk "A".data sIN_PROGRESS [] 0
        [Task.mk "B".data sDONE [] 1 [], Task.mk "C".data sOPEN [] 1 []]]
      (some (0, [1])))
    (Reachable.toggled _ (some (0, [1]))
      (Reachable.loaded "A:OPEN:\n    B:DONE:\n    C:OPEN:\n".data
        [Task.mk "A".data sIN_PROGRESS [] 0
          [Task.mk "B".data sDONE [] 1 [], Task.mk "C".data sOPEN [] 1 []]] rfl))
    (Task.mk "A".data sIN_PROGRESS [] 0
      [Task.mk "B".data sDONE [] 1 [], Task.mk "C".data sIN_PROGRESS [] 1 []])
    (List.mem_cons_self _ _) (by rw [children_mk]; exact fun h => List.noConfusion h),
   C8_amended.2.1 ([], []) "x::y".data "x".data [] "y".data
    ([], [(⟨"x".data, STATUS_DEFAULT, "y".data, 0, []⟩ : Frame)])
    (by decide) (by decide) rfl rfl rfl⟩

theorem closeN_nil (k : Nat) (roots : List Task) : closeN k [] roots = ([], roots) := by
  cases k <;> rfl

theorem closeN_succ (k : Nat) (f : Frame) (rest : List Frame) (roots : List Task) :
    closeN (k + 1) (f :: rest) roots =
      closeN k (attachTask f.toTask rest roots).1 (attachTask f.toTask rest roots).2 := by
  cases rest <;> rfl

theorem closeN_add : ∀ (a b : Nat) (stack : List Frame) (roots : List Task),
    closeN (a + b) stack roots
      = closeN b (closeN a stack roots).1 (closeN a stack roots).2 := by
  intro a
  induction a with
  | zero =>
    intro b stack roots
    rw [Nat.zero_add]
    rfl
  | succ n ih =>
    intro b stack roots
    cases stack with
    | nil =>
      rw [closeN_nil, closeN_nil, closeN_nil]
    | cons f rest =>
      have e : n + 1 + b = (n + b) + 1 := by omega
      rw [e, closeN_succ, closeN_succ, ih]

theorem openSpine_nil (n s u : Str) (d : Nat) :
    openSpine (.mk n s u d []) = [⟨n, s, u, d, []⟩] := by
  rw [openSpine]
  rfl

theorem openSpine_last (n s u : Str) (d : Nat) (cs : List Task) (c : Task)
    (h : cs.getLast? = some c) :
    openSpine (.mk n s u d cs) = openSpine c ++ [⟨n, s, u, d, cs.dropLast⟩] := by
  rw [openSpine]
  split
  · rename_i h2
    rw [h] at h2
    cases h2
  · rename_i c2 h2
    rw [h, Option.some.injEq] at h2
    rw [h2]

theorem closeSpine : ∀ (t : Task), ∀ (rest : List Frame) (roots : List Task),
    closeN (openSpine t).length (openSpine t ++ rest) roots = attachTask t rest roots := by
  intro t
  induction t using Task.inductionOn with
  | h n s u d cs ih =>
    intro rest roots
    cases hlast : cs.getLast? with
    | none =>
      obtain rfl : cs = [] := List.getLast?_eq_none_iff.mp hlast
      rw [openSpine_nil, List.length_singleton, List.singleton_append, closeN_succ]
      rfl
    | some c =>
      have hcne : cs ≠ [] := by
        intro e
        rw [e] at hlast
        cases hlast
      have hmem : c ∈ cs := List.mem_of_mem_getLast? hlast
      have hcs : cs.dropLast ++ [c] = cs := by
        have h2 := List.dropLast_concat_getLast hcne
        have h3 : cs.getLast hcne = c := by
          rw [List.getLast?_eq_getLast cs hcne, Option.some.injEq] at hlast
          exact hlast
        rw [h3] at h2
        exact h2
      rw [openSpine_last n s u d cs c hlast]
      rw [List.append_assoc, List.singleton_append, List.length_append,
        List.length_singleton, closeN_add, ih c hmem]
      show closeN 1 (⟨n, s, u, d, cs.dropLast ++ [c]⟩ :: rest) roots = _
      rw [closeN_succ]
      show closeN 0 (attachTask (Task.mk n s u d (cs.dropLast ++ [c])) rest roots).1
        (attachTask (Task.mk n s u d (cs.dropLast ++ [c])) rest roots).2 = _
      rw [hcs]
      rfl

/-! ## Reparsing a serialized task line -/
theorem nameOk_elim (n : Str) (h : nameOk n = true) :
    pyStrip n = n ∧ ':' ∉ n ∧ n.head? ≠ some '#' ∧ '\n' ∉ n := by
  simp only [nameOk, fieldOk, Bool.and_eq_true, decide_eq_true_eq, Bool.not_eq_true',
    decide_eq_false_iff_not] at h
  exact ⟨h.1.1.1, h.1.2, h.2, h.1.1.2⟩

theorem statusOk_elim (s : Str) (h : statusOk s = true) :
    pyStrip s = s ∧ ':' ∉ s ∧ s ≠ [] ∧ '\n' ∉ s := by
  simp only [statusOk, fieldOk, Bool.and_eq_true, decide_eq_true_eq, Bool.not_eq_true',
    decide_eq_false_iff_not] at h
  exact ⟨h.1.1.1, h.1.2, h.2, h.1.1.2⟩

theorem fieldOk_elim (u : Str) (h : fieldOk u = true) :
    pyStrip u = u ∧ '\n' ∉ u := by
  simp only [fieldOk, Bool.and_eq_true, decide_eq_true_eq, Bool.not_eq_true',
    decide_eq_false_iff_not] at h
  exact h

theorem expandTabs_replicate (k : Nat) :
    expandTabs (List.replicate k ' ') = List.replicate k ' ' := by
  induction k with
  | zero => rfl
  | succ m ih =>
    rw [List.replicate_succ]
    show (if ' ' = '\t' then [' ', ' ', ' ', ' '] else [' ']) ++
      expandTabs (List.replicate m ' ') = _
    rw [if_neg (by decide), ih]
    rfl

theorem takeWhile_spaces_append (k : Nat) (rest : Str)
    (h : ∀ c, rest.head? = some c → isPySpace c = false) :
    (List.replicate k ' ' ++ rest).takeWhile isPySpace = List.replicate k ' ' ∧
    (List.replicate k ' ' ++ rest).dropWhile isPySpace = rest := by
  induction k with
  | zero =>
    simp only [List.replicate_zero, List.nil_append]
    cases rest with
    | nil => exact ⟨rfl, rfl⟩
    | cons x xs =>
      have hx := h x rfl
      constructor
      · rw [List.takeWhile_cons_of_neg (by rw [hx]; exact Bool.false_ne_true)]
      · rw [List.dropWhile_cons_of_neg (by rw [hx]; exact Bool.false_ne_true)]
  | succ m ih =>
    rw [List.replicate_succ, List.cons_append]
    constructor
    · rw [List.takeWhile_cons_of_pos (by decide), ih.1]
    · rw [List.dropWhile_cons_of_pos (by decide), ih.2]

theorem contentOf_ne_nil (n s u : Str) : contentOf n s u ≠ [] := by
  unfold contentOf
  cases n <;> simp

theorem content_head (n s u : Str) :
    (contentOf n s u).head? = some (n.headD ':') := by
  cases n with
  | nil => rfl
  | cons x xs => rfl

theorem content_head_not_space (n s u : Str) (hstrip : pyStrip n = n) :
    ∀ c, (contentOf n s u).head? = some c → isPySpace c = false := by
  intro c hc
  rw [content_head] at hc
  cases n with
  | nil =>
    simp only [List.headD_nil, Option.some.injEq] at hc
    rw [← hc]
    decide
  | cons x xs =>
    simp only [List.headD_cons, Option.some.injEq] at hc
    rw [← hc]
    exact strip_eq_head_not_space (x :: xs) hstrip x rfl

theorem content_last_not_space (n s u : Str) (hstrip : pyStrip u = u) :
    ∀ c, (contentOf n s u).getLast? = some c → isPySpace c = false := by
  intro c hc
  unfold contentOf at hc
  rw [List.getLast?_append_of_ne_nil n (by simp)] at hc
  cases u with
  | nil =>
    have h2 : (':' :: (s ++ [':'])).getLast? = some ':' := by
      have := @List.getLast?_append_of_ne_nil Char (':' :: s) [':'] (by simp)
      simpa using this
    rw [h2, Option.some.injEq] at hc
    rw [← hc]
    decide
  | cons x xs =>
    have h2 : (':' :: (s ++ ':' :: (x :: xs))).getLast? = (x :: xs).getLast? := by
      have ha := @List.getLast?_append_of_ne_nil Char (':' :: s) (':' :: (x :: xs)) (by simp)
      have hb := @List.getLast?_append_of_ne_nil Char [':'] (x :: xs) (by simp)
      simp only [List.cons_append, List.nil_append] at ha hb ⊢
      rw [ha, hb]
    rw [h2] at hc
    exact strip_eq_last_not_space (x :: xs) hstrip c hc

theorem pyStrip_content (n s u : Str) (hn : pyStrip n = n) (hu : pyStrip u = u) :
    pyStrip (contentOf n s u) = contentOf n s u :=
  pyStrip_eq_self_of _ (content_head_not_space n s u hn) (content_last_not_space n s u hu)

theorem taskLine_eq (n s u : Str) (d : Nat) (cs : List Task) :
    taskLine (.mk n s u d cs) = List.replicate (4 * d) ' ' ++ contentOf n s u := by
  unfold taskLine contentOf
  simp only [name_mk, status_mk, due_mk, depth_mk, List.cons_append, List.append_assoc]

theorem closeTo_zero_fst (stack : List Frame) (roots : List Task) :
    (closeTo 0 stack roots).1 = [] := by
  apply List.length_eq_zero.mp
  rw [closeTo, closeN_length, Nat.sub_zero, Nat.sub_self]

/-- Reparsing the line serialized for a well-formed task from any stack
deep enough for its depth: the stack is closed to `d` and a fresh frame
with exactly the stored fields is pushed. -/
theorem parseStep_taskLine (roots : List Task) (stack : List Frame)
    (n s u : Str) (d : Nat) (cs : List Task)
    (hn : nameOk n = true) (hs : statusOk s = true) (hu : fieldOk u = true)
    (hds : ¬ stack.length < d) :
    parseStep (roots, stack) (taskLine (.mk n s u d cs)) =
      .ok ((closeTo d stack roots).2, ⟨n, s, u, d, []⟩ :: (closeTo d stack roots).1) := by
  obtain ⟨hnstrip, hncolon, hnhash, _⟩ := nameOk_elim n hn
  obtain ⟨hsstrip, hscolon, hsne, _⟩ := statusOk_elim s hs
  obtain ⟨hustrip, _⟩ := fieldOk_elim u hu
  have hsplit0 := takeWhile_spaces_append (4 * d) (contentOf n s u)
    (content_head_not_space n s u hnstrip)
  have hdrop : (taskLine (.mk n s u d cs)).dropWhile isPySpace = contentOf n s u := by
    rw [taskLine_eq]
    exact hsplit0.2
  have htake : (taskLine (.mk n s u d cs)).takeWhile isPySpace = List.replicate (4 * d) ' ' := by
    rw [taskLine_eq]
    exact hsplit0.1
  have hdc : (contentOf n s u).dropWhile isPySpace = contentOf n s u := by
    cases hcc : contentOf n s u with
    | nil => rfl
    | cons x xs =>
      refine List.dropWhile_cons_of_neg ?_
      have hx := content_head_not_space n s u hnstrip x (by rw [hcc]; rfl)
      rw [hx]
      exact Bool.false_ne_true
  have hpstrip : pyStrip (taskLine (.mk n s u d cs)) = contentOf n s u := by
    rw [pyStrip_eq_rdropWhile, hdrop]
    have h2 := pyStrip_content n s u hnstrip hustrip
    rw [pyStrip_eq_rdropWhile, hdc] at h2
    exact h2
  have h1 : pyStrip (taskLine (.mk n s u d cs)) ≠ [] := by
    rw [hpstrip]
    exact contentOf_ne_nil n s u
  have h2 : (pyStrip (taskLine (.mk n s u d cs))).head? ≠ some '#' := by
    rw [hpstrip, content_head]
    intro hcc
    rw [Option.some.injEq] at hcc
    cases n with
    | nil => exact absurd hcc.symm (by decide)
    | cons x xs =>
      simp only [List.headD_cons] at hcc
      exact hnhash (by rw [List.head?_cons, hcc])
  have hsplit : split2 ((taskLine (.mk n s u d cs)).dropWhile isPySpace) = some (n, s, u) := by
    rw [hdrop]
    exact split2_append n s u hncolon hscolon
  have hdepth : lineDepth (taskLine (.mk n s u d cs)) = d := by
    unfold lineDepth
    rw [htake, expandTabs_replicate, List.length_replicate]
    exact Nat.mul_div_cancel_left d (by norm_num)
  rw [parseStep_eq roots stack _ n s u h1 h2 hsplit]
  rw [hnstrip, hsstrip, hustrip, hdepth]
  rw [if_neg hsne]
  by_cases hd0 : d = 0
  · subst hd0
    rw [if_pos rfl, closeTo_zero_fst]
  · rw [if_neg hd0, if_neg hds]

theorem linesOfTask_eq (n s u : Str) (d : Nat) (cs : List Task) :
    linesOfTask (.mk n s u d cs) = taskLine (.mk n s u d cs) :: linesOfList cs := by
  unfold linesOfTask linesOfList
  rw [flattenTask]
  rfl

theorem linesOfList_cons (t : Task) (ts : List Task) :
    linesOfList (t :: ts) = linesOfTask t ++ linesOfList ts := by
  unfold linesOfTask linesOfList
  rw [flattenTaskList, List.map_append]

theorem closeTo_length (target : Nat) (stack : List Frame) (roots : List Task)
    (h : target ≤ stack.length) :
    (closeTo target stack roots).1.length = target := by
  rw [closeTo, closeN_length]
  omega

theorem ML_kids (n s u : Str) (d : Nat) (stack₀ : List Frame)
    (hs0 : stack₀.length = d) :
    ∀ (cs' : List Task),
    (∀ c ∈ cs', ∀ (roots : List Task) (stack : List Frame), d + 1 ≤ stack.length →
      (linesOfTask c).foldlM parseStep (roots, stack)
        = .ok ((closeTo (d + 1) stack roots).2,
            openSpine c ++ (closeTo (d + 1) stack roots).1)) →
    ∀ (done roots : List Task) (st : List Frame),
    closeTo (d + 1) st roots = (⟨n, s, u, d, done⟩ :: stack₀, roots) →
    d + 1 ≤ st.length →
    (linesOfList cs').foldlM parseStep (roots, st)
      = .ok (roots, endSt n s u d stack₀ done cs' st) := by
  intro cs'
  induction cs' with
  | nil =>
    intro _ done roots st hclose hlen
    rfl
  | cons c cs'' ih =>
    intro hIH done roots st hclose hlen
    rw [linesOfList_cons, List.foldlM_append]
    rw [hIH c (by simp) roots st hlen, hclose]
    rw [except_bind_ok]
    have hlen' : d + 1 ≤ (openSpine c ++ ⟨n, s, u, d, done⟩ :: stack₀).length := by
      rw [List.length_append, List.length_cons, hs0]
      omega
    have hclose' : closeTo (d + 1) (openSpine c ++ ⟨n, s, u, d, done⟩ :: stack₀) roots
        = (⟨n, s, u, d, done ++ [c]⟩ :: stack₀, roots) := by
      rw [closeTo]
      have hpops : (openSpine c ++ ⟨n, s, u, d, done⟩ :: stack₀).length - (d + 1)
          = (openSpine c).length := by
        rw [List.length_append, List.length_cons, hs0]
        omega
      rw [hpops, closeSpine]
      rfl
    rw [ih (fun c2 hc2 => hIH c2 (by simp [hc2])) (done ++ [c]) roots _ hclose' hlen']
    congr 1
    congr 1
    cases cs'' with
    | nil =>
      unfold endSt
      simp only [List.getLast?_nil, List.getLast?_singleton, List.dropLast_single,
        List.append_nil]
    | cons c2 rest =>
      unfold endSt
      cases hg : (c2 :: rest).getLast? with
      | none =>
        rw [List.getLast?_eq_none_iff] at hg
        cases hg
      | some cl =>
        have hg2 : (c :: c2 :: rest).getLast? = some cl := by
          rw [List.getLast?_cons_cons]
          exact hg
        rw [hg2]
        simp only
        have hdl : (c :: c2 :: rest).dropLast = c :: (c2 :: rest).dropLast := rfl
        rw [hdl, List.append_cons done c (c2 :: rest).dropLast]

theorem ML_tree : ∀ (t : Task), ∀ (d : Nat), wfT d t = true →
    ∀ (roots : List Task) (stack : List Frame), d ≤ stack.length →
    (linesOfTask t).foldlM parseStep (roots, stack)
      = .ok ((closeTo d stack roots).2, openSpine t ++ (closeTo d stack roots).1) := by
  intro t
  induction t using Task.inductionOn with
  | h n s u dep cs ih =>
    intro d hw roots stack hlen
    simp only [wfT, Bool.and_eq_true, decide_eq_true_eq] at hw
    obtain ⟨⟨⟨⟨hname, hstat⟩, hdue⟩, hdep⟩, hkids⟩ := hw
    subst hdep
    rw [linesOfTask_eq, List.foldlM_cons]
    rw [parseStep_taskLine roots stack n s u dep cs hname hstat hdue (by omega)]
    rw [except_bind_ok]
    have hst1 : ((closeTo dep stack roots).1).length = dep :=
      closeTo_length dep stack roots hlen
    have hclose0 : closeTo (dep + 1)
        (⟨n, s, u, dep, []⟩ :: (closeTo dep stack roots).1) ((closeTo dep stack roots).2)
        = (⟨n, s, u, dep, []⟩ :: (closeTo dep stack roots).1, (closeTo dep stack roots).2) := by
      rw [closeTo]
      have : (⟨n, s, u, dep, []⟩ :: (closeTo dep stack roots).1 : List Frame).length - (dep + 1)
          = 0 := by
        rw [List.length_cons, hst1]
        omega
      rw [this]
      rfl
    have hIH : ∀ c ∈ cs, ∀ (roots2 : List Task) (stack2 : List Frame),
        dep + 1 ≤ stack2.length →
        (linesOfTask c).foldlM parseStep (roots2, stack2)
          = .ok ((closeTo (dep + 1) stack2 roots2).2,
              openSpine c ++ (closeTo (dep + 1) stack2 roots2).1) := by
      intro c hc roots2 stack2 hlen2
      exact ih c hc (dep + 1) ((wfL_iff (dep + 1) cs).mp hkids c hc) roots2 stack2 hlen2
    rw [ML_kids n s u dep ((closeTo dep stack roots).1) hst1 cs hIH []
      ((closeTo dep stack roots).2) _ hclose0 (by rw [List.length_cons, hst1])]
    congr 1
    congr 1
    unfold endSt
    cases hg : cs.getLast? with
    | none =>
      obtain rfl : cs = [] := List.getLast?_eq_none_iff.mp hg
      rw [openSpine_nil]
      rfl
    | some c =>
      rw [openSpine_last n s u dep cs c hg]
      rw [List.append_assoc, List.singleton_append, List.nil_append]

theorem ML_forest : ∀ (F : List Task), wfL 0 F = true →
    ∀ (roots acc : List Task) (st : List Frame),
    closeN st.length st roots = ([], acc) →
    (linesOfList F).foldlM parseStep (roots, st)
      = .ok (match F.getLast? with
             | none => (roots, st)
             | some r => (acc ++ F.dropLast, openSpine r)) := by
  intro F
  induction F with
  | nil =>
    intro _ roots acc st _
    rfl
  | cons r F2 ih =>
    intro hwf roots acc st hclose
    rw [linesOfList_cons, List.foldlM_append]
    have hwfr : wfT 0 r = true := by
      simp only [wfL, Bool.and_eq_true] at hwf
      exact hwf.1
    have hwf2 : wfL 0 F2 = true := by
      simp only [wfL, Bool.and_eq_true] at hwf
      exact hwf.2
    rw [ML_tree r 0 hwfr roots st (Nat.zero_le _)]
    have hc0 : closeTo 0 st roots = ([], acc) := by
      rw [closeTo, Nat.sub_zero]
      exact hclose
    rw [hc0, except_bind_ok, List.append_nil]
    have hclose2 : closeN (openSpine r).length (openSpine r) acc = ([], acc ++ [r]) := by
      have hsp := closeSpine r [] acc
      rw [List.append_nil] at hsp
      rw [hsp]
      rfl
    rw [ih hwf2 acc (acc ++ [r]) (openSpine r) hclose2]
    cases F2 with
    | nil =>
      simp only [List.getLast?_nil, List.getLast?_singleton, List.dropLast_single,
        List.append_nil]
    | cons r2 rest =>
      cases hg : (r2 :: rest).getLast? with
      | none =>
        rw [List.getLast?_eq_none_iff] at hg
        cases hg
      | some rl =>
        have hg2 : (r :: r2 :: rest).getLast? = some rl := by
          rw [List.getLast?_cons_cons]
          exact hg
        rw [hg2]
        simp only
        have hdl : (r :: r2 :: rest).dropLast = r :: (r2 :: rest).dropLast := rfl
        rw [hdl, List.append_cons acc r (r2 :: rest).dropLast]

theorem splitLines_append_nl : ∀ (l : Str), '\n' ∉ l → ∀ (rest : Str),
    splitLines (l ++ '\n' :: rest) = l :: splitLines rest := by
  intro l
  induction l with
  | nil =>
    intro _ rest
    rw [List.nil_append]
    simp [splitLines]
  | cons c l2 ih =>
    intro hnl rest
    have hc : ¬c = '\n' := fun e => hnl (by simp [e])
    rw [List.cons_append]
    simp only [splitLines, if_neg hc]
    rw [ih (fun h => hnl (List.mem_cons_of_mem c h)) rest]

theorem splitLines_joinNL : ∀ (L : List Str), (∀ l ∈ L, '\n' ∉ l) → L ≠ [] →
    splitLines (joinNL L ++ ['\n']) = L ++ [[]] := by
  intro L
  induction L with
  | nil =>
    intro _ h
    exact absurd rfl h
  | cons l L2 ih =>
    intro hnl _
    cases L2 with
    | nil =>
      show splitLines (l ++ ['\n']) = [l, []]
      rw [splitLines_append_nl l (hnl l (by simp)) []]
      rfl
    | cons l2 rest =>
      show splitLines ((l ++ '\n' :: joinNL (l2 :: rest)) ++ ['\n']) = _
      rw [List.append_assoc, List.cons_append]
      rw [splitLines_append_nl l (hnl l (by simp)) (joinNL (l2 :: rest) ++ ['\n'])]
      rw [ih (fun x hx => hnl x (by simp [hx])) (by simp)]
      rfl

theorem taskLine_no_newline (t : Task) (d : Nat) (h : wfT d t = true) :
    '\n' ∉ taskLine t := by
  obtain ⟨n, s, u, dep, cs⟩ := t
  simp only [wfT, Bool.and_eq_true] at h
  obtain ⟨⟨⟨⟨hname, hstat⟩, hdue⟩, _⟩, _⟩ := h
  obtain ⟨_, _, _, hn⟩ := nameOk_elim n hname
  obtain ⟨_, _, _, hs⟩ := statusOk_elim s hstat
  obtain ⟨_, hu⟩ := fieldOk_elim u hdue
  rw [taskLine_eq]
  intro hmem
  rcases List.mem_append.mp hmem with hm | hm
  · exact absurd (List.eq_of_mem_replicate hm) (by decide)
  · unfold contentOf at hm
    rcases List.mem_append.mp hm with hm2 | hm2
    · exact hn hm2
    · rcases List.mem_cons.mp hm2 with he | hm3
      · exact absurd he (by decide)
      · rcases List.mem_append.mp hm3 with hm4 | hm4
        · exact hs hm4
        · rcases List.mem_cons.mp hm4 with he | hm5
          · exact absurd he (by decide)
          · exact hu hm5

theorem wf_flatten : ∀ (t : Task) (d : Nat), wfT d t = true →
    ∀ x ∈ flattenTask t, ∃ e, wfT e x = true := by
  intro t
  induction t using Task.inductionOn with
  | h n s u dep cs ih =>
    intro d hw x hx
    rw [flattenTask] at hx
    rcases List.mem_cons.mp hx with rfl | hx2
    · exact ⟨d, hw⟩
    · rw [flattenTaskList_eq] at hx2
      obtain ⟨c, hc, hxc⟩ := List.mem_flatMap.mp hx2
      have hcw : wfT (d + 1) c = true := by
        simp only [wfT, Bool.and_eq_true] at hw
        exact (wfL_iff (d + 1) cs).mp hw.2 c hc
      exact ih c hc (d + 1) hcw x hxc

theorem linesOfList_no_newline (F : List Task) (h : wfL 0 F = true) :
    ∀ l ∈ linesOfList F, '\n' ∉ l := by
  intro l hl
  unfold linesOfList at hl
  obtain ⟨x, hx, rfl⟩ := List.mem_map.mp hl
  rw [flattenTaskList_eq] at hx
  obtain ⟨t, ht, hxt⟩ := List.mem_flatMap.mp hx
  obtain ⟨e, he⟩ := wf_flatten t 0 ((wfL_iff 0 F).mp h t ht) x hxt
  exact taskLine_no_newline x e he

/-! ## Claim C1 -/
/-- C1. Round-trip law: any forest produced by `parse_tasks_from_file`
is serialized by `save_tasks_to_file` to a text that parses back to
exactly the same forest — same roots in order, and for every node the
same name, status, due, depth and children in order. -/
theorem C1_roundtrip (text : Str) (F : List Task)
    (h : parse_tasks_from_file (.content text) = .ok F) :
    parse_tasks_from_file (.content (save_tasks_to_string F)) = .ok F := by
  obtain ⟨hwf, hroll⟩ := parse_file_wf text F h
  by_cases hFe : F = []
  · subst hFe
    rfl
  · have hlast : F.getLast? = some (F.getLast hFe) := List.getLast?_eq_getLast F hFe
    have hlines_ne : linesOfList F ≠ [] := by
      cases F with
      | nil => exact absurd rfl hFe
      | cons r F0 =>
        rw [linesOfList_cons]
        cases r with
        | mk n s u d cs =>
          rw [linesOfTask_eq]
          simp
    have hsplit : splitLines (save_tasks_to_string F) = linesOfList F ++ [[]] := by
      show splitLines (joinNL ((flatten_tasks F).map taskLine) ++ ['\n']) = _
      exact splitLines_joinNL (linesOfList F) (linesOfList_no_newline F hwf) hlines_ne
    have hfold : (linesOfList F ++ [[]]).foldlM parseStep
        (([] : List Task), ([] : List Frame)) = .ok (F.dropLast, openSpine (F.getLast hFe)) := by
      rw [List.foldlM_append, ML_forest F hwf [] [] [] rfl, hlast]
      simp only
      rw [except_bind_ok, List.nil_append]
      rw [List.foldlM_cons, parseStep_skip _ [] (Or.inl rfl), except_bind_ok]
      rfl
    show parseTasks (splitLines (save_tasks_to_string F)) = .ok F
    rw [hsplit]
    unfold parseTasks
    rw [hfold, except_bind_ok]
    simp only
    have hct : closeTo 0 (openSpine (F.getLast hFe)) F.dropLast = ([], F) := by
      rw [closeTo, Nat.sub_zero]
      have hsp := closeSpine (F.getLast hFe) [] F.dropLast
      rw [List.append_nil] at hsp
      rw [hsp]
      show (([] : List Frame), F.dropLast ++ [F.getLast hFe]) = ([], F)
      rw [List.dropLast_concat_getLast hFe]
    rw [hct]
    simp only
    rw [walkRecalcList_id_of_rollUp F hroll]
    rfl

/-- Witness for C1: the Scenario C forest round-trips. -/
theorem C1_roundtrip_witness :
    parse_tasks_from_file (.content (save_tasks_to_string
      [Task.mk "A".data sIN_PROGRESS [] 0
        [Task.mk "B".data sDONE [] 1 [], Task.mk "C".data sOPEN [] 1 []]]))
      = .ok [Task.mk "A".data sIN_PROGRESS [] 0
        [Task.mk "B".data sDONE [] 1 [], Task.mk "C".data sOPEN [] 1 []]] :=
  C1_roundtrip "A:OPEN:\n    B:DONE:\n    C:OPEN:\n".data
    [Task.mk "A".data sIN_PROGRESS [] 0
      [Task.mk "B".data sDONE [] 1 [], Task.mk "C".data sOPEN [] 1 []]] rfl

example : parseTasks (splitLines "Buy milk::".data) =
    .ok [Task.mk "Buy milk".data sOPEN [] 0 []] := rfl

example : parseTasks (splitLines "A:OPEN:\n    B:DONE:\n    C:OPEN:\n".data) =
    .ok [Task.mk "A".data sIN_PROGRESS [] 0
      [Task.mk "B".data sDONE [] 1 [], Task.mk "C".data sOPEN [] 1 []]] := rfl

example : parseTasks (splitLines "    X:OPEN:".data) =
    .error (.nestedTooDeeply "    X:OPEN:".data) := rfl

example : parseTasks (splitLines "A:OPEN".data) =
    .error (.invalidLine "A:OPEN".data) := rfl

example :
    save_tasks_to_string [Task.mk "A".data sIN_PROGRESS [] 0
      [Task.mk "B".data sDONE [] 1 [], Task.mk "C".data sOPEN [] 1 []]] =
    "A:IN_PROGRESS:\n    B:DONE:\n    C:OPEN:\n".data := rfl

example : parseTasks (splitLines (save_tasks_to_string [Task.mk "A".data sIN_PROGRESS [] 0
      [Task.mk "B".data sDONE [] 1 [], Task.mk "C".data sOPEN [] 1 []]])) =
    .ok [Task.mk "A".data sIN_PROGRESS [] 0
      [Task.mk "B".data sDONE [] 1 [], Task.mk "C".data sOPEN [] 1 []]] := rfl

end LC

